import Mathlib

/-!
Verification of the YTB Telegram YouTube-downloader bot.

Shallow embedding of `modules/youtube.py` and `main.py`. Strings are
modelled as `List Char` (Python `str` values); Python exceptions are
modelled with `Except` where the error payload is the exception's
message (`str(e)`); the effects of the orchestrator (`download_and_send`,
`callback_download`) are modelled as explicit event traces; the
filesystem seen by the download worker is an association list from
paths to file sizes.
-/

set_option maxRecDepth 4000

namespace YTB

/-- Python strings are modelled as lists of characters. -/
abbrev Str := List Char

/-! ## Python `re` word characters

`modules/youtube.py` applies `re.sub` / `re.search` to `str` values, so
character classes are Unicode-aware.  `pyIsWordChar` models Python's
regex `\w` (letters, digits, underscore per the Unicode database)
exactly on the Basic Latin and Latin-1 blocks (code points < 0x100):
ASCII alphanumerics and `_`, plus the Latin-1 word characters
ª ² ³ µ ¹ º ¼ ½ ¾ and the letter ranges À–Ö, Ø–ö, ø–ÿ (excluding the
operators × and ÷).  Code points ≥ 0x100 are outside the modelled
range and are mapped to `false`; theorems that depend on `\w` restrict
their inputs to the modelled range. -/
def pyIsWordChar (c : Char) : Bool :=
  let n := c.toNat
  (65 ≤ n && n ≤ 90) || (97 ≤ n && n ≤ 122) || (48 ≤ n && n ≤ 57) || n = 95
  || n = 0xAA || n = 0xB2 || n = 0xB3 || n = 0xB5 || n = 0xB9 || n = 0xBA
  || n = 0xBC || n = 0xBD || n = 0xBE
  || (0xC0 ≤ n && n ≤ 0xFF && !(n = 0xD7) && !(n = 0xF7))

/-- A character kept unchanged by `sanitize_filename`: the complement of
the regex class `[^\w\-_\. ]` from `modules/youtube.py` line 47, i.e.
`\w`, hyphen, underscore, period or space (code points 45, 95, 46,
32). -/
def keptBySanitize (c : Char) : Bool :=
  pyIsWordChar c || c.toNat = 45 || c.toNat = 95 || c.toNat = 46 || c.toNat = 32

/-- The safe set named by the specification for C2: the ASCII characters
`[A-Za-z0-9_\-. ]` (alphanumerics, underscore, hyphen, period, space). -/
def specSafeChar (c : Char) : Bool :=
  let n := c.toNat
  (65 ≤ n && n ≤ 90) || (97 ≤ n && n ≤ 122) || (48 ≤ n && n ≤ 57) ||
  n = 95 || n = 45 || n = 46 || n = 32

/-! ## `os.path.split` and `os.path.join` (posixpath) -/

/-- The path separator test. -/
def isSlash (c : Char) : Bool := c = '/'

/-- The complement of the path separator test. -/
def notSlash (c : Char) : Bool := !(isSlash c)

/-- Model of posixpath `os.path.split`: split at the last `/`; the head
keeps its trailing slashes stripped unless it consists only of slashes. -/
def pathSplit (p : Str) : Str × Str :=
  let tail := (p.reverse.takeWhile notSlash).reverse
  let head := p.take (p.length - tail.length)
  ((if head ≠ [] ∧ head.any notSlash then (head.reverse.dropWhile isSlash).reverse
    else head), tail)

/-- Model of posixpath `os.path.join` with two arguments. -/
def pathJoin (a b : Str) : Str :=
  if b.head? = some '/' then b
  else if a = [] ∨ a.getLast? = some '/' then a ++ b
  else a ++ '/' :: b

/-- Embedding of `sanitize_filename` (modules/youtube.py lines 44-48):
split the path, replace every character of the filename component that
matches `[^\w\-_\. ]` by an underscore, and rejoin. -/
def sanitize_filename (p : Str) : Str :=
  let dn := (pathSplit p).1
  let fn := (pathSplit p).2
  pathJoin dn (fn.map (fun c => if keptBySanitize c then c else '_'))

/-! ## Download worker (`_pytube_download`) -/

/-- `MAX_TELEGRAM_SIZE` (modules/youtube.py line 24): `2000 * 1024 * 1024`. -/
def MAX_TELEGRAM_SIZE : Nat := 2000 * 1024 * 1024

/-- A stream offered by the provider, as the claims model it: an
audio-only flag, an audio bitrate and a video resolution. -/
structure YtStream where
  onlyAudio : Bool
  abr : Nat
  resolution : Nat
deriving DecidableEq, Repr

/-- One step of a maximal-element scan: keep the stream with the larger
key, the newer one on ties. -/
def pickMaxBy (key : YtStream → Nat) (acc : Option YtStream) (s : YtStream) :
    Option YtStream :=
  match acc with
  | none => some s
  | some t => if key t ≤ key s then some s else some t

/-- Modelled from the spec: pytube's
`streams.filter(only_audio=True).order_by("abr").desc().first()`
(modules/youtube.py line 60).  pytube is an external library (not part
of this repository); per its contract and the spec this selects an
audio-only stream of maximal bitrate. -/
def selectAudioStream (streams : List YtStream) : Option YtStream :=
  (streams.filter (fun s => s.onlyAudio)).foldl (pickMaxBy (fun s => s.abr)) none

/-- Modelled from the spec: pytube's `streams.get_highest_resolution()`
(modules/youtube.py line 64).  pytube is an external library; per its
contract and the spec ("selects the highest-resolution stream
available") this selects a stream of maximal resolution. -/
def get_highest_resolution (streams : List YtStream) : Option YtStream :=
  streams.foldl (pickMaxBy (fun s => s.resolution)) none

/-- Embedding of the stream-selection block of `_pytube_download`
(modules/youtube.py lines 59-66): audio mode takes the best audio-only
stream and raises `❌ No audio streams found` when there is none; any
other mode takes the highest-resolution stream and raises
`❌ No video streams found` when there is none. -/
def pytubeSelectStream (mode : Str) (streams : List YtStream) : Except Str YtStream :=
  if mode = ("audio").toList then
    match selectAudioStream streams with
    | some s => .ok s
    | none => .error (("❌ No audio streams found").toList)
  else
    match get_highest_resolution streams with
    | some s => .ok s
    | none => .error (("❌ No video streams found").toList)

/-- Video info returned by `YouTube(url)`: the offered streams and the
metadata fields read by `_pytube_download`. -/
structure VideoInfo where
  streams : List YtStream
  title : Str
  author : Str
  length : Int

/-- The dictionary returned by `_pytube_download` on success. -/
structure DLResult where
  filepath : Str
  title : Str
  uploader : Str
  duration : Int
  webpage_url : Str
deriving DecidableEq

/-- Environment of one `_pytube_download` run: the outcome of the
external calls it makes.  `resolve` is `YouTube(url)`; `downloaded` is
`stream.download(...)`, which on success creates a file at the
provider-chosen path `providerPath` of size `size` bytes and returns
that path. -/
structure PtEnv where
  resolve : Except Str VideoInfo
  downloaded : Except Str Unit
  providerPath : Str
  size : Nat

/-- The filesystem seen by the worker: a map from paths to sizes,
newest entry first. -/
abbrev Disk := List (Str × Nat)

/-- Model of `os.path.getsize`: the size of the file at `p`, or a
`FileNotFoundError` when no such file exists. -/
def getsize (disk : Disk) (p : Str) : Except Str Nat :=
  match disk.find? (fun e => e.1 = p) with
  | some e => .ok e.2
  | none => .error (("FileNotFoundError: ").toList ++ p)

/-- Embedding of `_pytube_download` (modules/youtube.py lines 50-85) as
a function of the pre-state of the disk and the environment.  Returns
the post-state of the disk together with the result (`.error` models an
escaping exception).  Steps, in source order: resolve the URL (failure
is wrapped as `❌ Failed to fetch video info: …`); select the stream;
download it, which writes the file at the provider-chosen path (failure
is wrapped as `❌ Failed to download: …`); sanitize the returned path —
a pure string operation, the file on disk is not renamed; `getsize` the
sanitized path; raise `❌ File too large for Telegram (max 2GB)` when
the size exceeds `MAX_TELEGRAM_SIZE`. -/
def pytube_download (disk : Disk) (env : PtEnv) (url mode : Str) :
    Disk × Except Str DLResult :=
  match env.resolve with
  | .error e => (disk, .error (("❌ Failed to fetch video info: ").toList ++ e))
  | .ok yt =>
    match pytubeSelectStream mode yt.streams with
    | .error e => (disk, .error e)
    | .ok _stream =>
      match env.downloaded with
      | .error e => (disk, .error (("❌ Failed to download: ").toList ++ e))
      | .ok () =>
        let disk' : Disk := (env.providerPath, env.size) :: disk
        let filepath := sanitize_filename env.providerPath
        match getsize disk' filepath with
        | .error e => (disk', .error e)
        | .ok sz =>
          if sz > MAX_TELEGRAM_SIZE then
            (disk', .error (("❌ File too large for Telegram (max 2GB)").toList))
          else
            (disk', .ok { filepath := filepath, title := yt.title,
                          uploader := yt.author, duration := yt.length,
                          webpage_url := url })

/-! ## `escape_md` (modules/youtube.py lines 174-179) -/

/-- The reserved characters escaped by `escape_md`, in the order the
source iterates over them: the Python string ``"_`*[]()#:+-=~|{}.!>"``. -/
def RESERVED : Str := ("_`*[]()#:+-=~|\x7b\x7d.!>").toList

/-- Model of Python `text.replace(ch, "\\" + ch)` for a single
character `ch`: every occurrence of `ch` gains a backslash before it. -/
def replaceChar (ch : Char) (s : Str) : Str :=
  s.flatMap (fun c => if c = ch then ['\\', ch] else [c])

/-- Embedding of `escape_md`: falsy (empty) text maps to the empty
string, otherwise each reserved character is replaced, one sequential
`str.replace` pass per character. -/
def escape_md (s : Str) : Str :=
  if s = [] then []
  else RESERVED.foldl (fun t ch => replaceChar ch t) s

/-! ## `format_seconds` (modules/youtube.py lines 161-172) -/

/-- Decimal digit characters. -/
def digitChar : Nat → Char
  | 0 => '0' | 1 => '1' | 2 => '2' | 3 => '3' | 4 => '4'
  | 5 => '5' | 6 => '6' | 7 => '7' | 8 => '8' | _ => '9'

/-- Accumulator loop producing the decimal digits of `n` before `acc`. -/
def toDecimalAux (n : Nat) (acc : Str) : Str :=
  if h : n = 0 then acc
  else toDecimalAux (n / 10) (digitChar (n % 10) :: acc)
decreasing_by exact Nat.div_lt_self (Nat.pos_of_ne_zero h) (by decide)

/-- Decimal rendering of a natural number (Python `str`/f-string). -/
def toDecimal (n : Nat) : Str :=
  if n = 0 then ['0'] else toDecimalAux n []

/-- Decimal rendering of an integer. -/
def intToDecimal (i : Int) : Str :=
  if i < 0 then '-' :: toDecimal (-i).toNat else toDecimal i.toNat

/-- Input of `format_seconds`: `some i` when `int(seconds)` succeeds
with value `i`, `none` when it raises. -/
abbrev SecondsInput := Option Int

/-- Embedding of `format_seconds`: `divmod` twice (Python `divmod` is
floor division, `Int.fdiv`/`Int.fmod`) and truthiness tests on the hour
and minute counts. -/
def format_seconds : SecondsInput → Str
  | none => ("Unknown").toList
  | some x =>
    let s1 := Int.fmod x 60
    let m0 := Int.fdiv x 60
    let m1 := Int.fmod m0 60
    let h := Int.fdiv m0 60
    if h ≠ 0 then
      intToDecimal h ++ ("h ").toList ++ intToDecimal m1 ++ ("m ").toList
        ++ intToDecimal s1 ++ ['s']
    else if m1 ≠ 0 then
      intToDecimal m1 ++ ("m ").toList ++ intToDecimal s1 ++ ['s']
    else
      intToDecimal s1 ++ ['s']

/-! ## `detect_platform` and `YOUTUBE_REGEX` (modules/youtube.py lines 27-38)

The regex
`(https?://)?(www\.)?(m\.)?(youtube\.com|youtu\.be)/`
`(watch\?v=[\w\-]{11}|shorts/[\w\-]{11}|embed/[\w\-]{11}|v/[\w\-]{11}|[\w\-]{11})`
with `re.IGNORECASE` is embedded as an explicit matcher: `re.search`
succeeds iff the pattern matches starting at some position, and each
optional group may be taken or skipped.  Case-insensitive comparison of
an ASCII literal is `Char.toLower` equality; `\w` is `pyIsWordChar`. -/

/-- A character of the class `[\w\-]` (video-id characters). -/
def wordOrDash (c : Char) : Bool := pyIsWordChar c || c = '-'

/-- Case-insensitive literal match: consume `pat` from the front of
`s`, returning the rest, or `none` when `s` does not start with `pat`
up to ASCII case. -/
def dropCI : Str → Str → Option Str
  | [], s => some s
  | _ :: _, [] => none
  | p :: ps, c :: cs => if c.toLower = p.toLower then dropCI ps cs else none

/-- Both continuations of an optional group `(pat)?`: skip it, or
consume it when it matches. -/
def optTails (pat : Str) (s : Str) : List Str :=
  match dropCI pat s with
  | some r => [s, r]
  | none => [s]

/-- Continuations of `(https?://)?`: skip, or consume `http://` or
`https://`. -/
def schemeTails (s : Str) : List Str :=
  s :: ((dropCI (("http://").toList) s).toList ++ (dropCI (("https://").toList) s).toList)

/-- Match of `(youtube\.com|youtu\.be)/`. -/
def hostTail (s : Str) : Option Str :=
  match dropCI (("youtube.com/").toList) s with
  | some r => some r
  | none => dropCI (("youtu.be/").toList) s

/-- Match of `[\w\-]{11}` at the front of `s`. -/
def word11 (s : Str) : Bool :=
  decide (11 ≤ s.length) && (s.take 11).all wordOrDash

/-- Match of a literal followed by `[\w\-]{11}`. -/
def litWord11 (pat : Str) (s : Str) : Bool :=
  match dropCI pat s with
  | some r => word11 r
  | none => false

/-- The five path alternatives of the regex:
`watch\?v=…|shorts/…|embed/…|v/…|[\w\-]{11}`. -/
def pathAltMatch (s : Str) : Bool :=
  litWord11 (("watch?v=").toList) s ||
  litWord11 (("shorts/").toList) s ||
  litWord11 (("embed/").toList) s ||
  litWord11 (("v/").toList) s ||
  word11 s

/-- Match of the whole `YOUTUBE_REGEX` pattern starting at the front of
`s`. -/
def youtubeMatchAt (s : Str) : Bool :=
  (schemeTails s).any (fun s1 =>
    (optTails (("www.").toList) s1).any (fun s2 =>
      (optTails (("m.").toList) s2).any (fun s3 =>
        match hostTail s3 with
        | some r => pathAltMatch r
        | none => false)))

/-- Model of `YOUTUBE_REGEX.search(text)`: the pattern matches at some
position of the text. -/
def youtubeSearch (t : Str) : Bool :=
  t.tails.any youtubeMatchAt

/-- Embedding of `detect_platform` (modules/youtube.py lines 33-38). -/
def detect_platform (t : Str) : Option Str :=
  if t = [] then none
  else if youtubeSearch t then some (("youtube").toList)
  else none

/-! ### The five URL shapes named by the specification (C6)

Following the claim's words: each shape is a YouTube URL core —
optional scheme, optional `www.` or `m.` subdomain, one of the two
YouTube hosts, one of the five path forms (canonical `watch?v=`,
`shorts/`, `embed/`, `v/` video-id path, bare id; `youtu.be` with a
bare id being the shortened-domain shape), then an 11-character video
id — matched case-insensitively.  A text "contains" a shape when the
shape occurs at some position of the text. -/

/-- Case-insensitive equality of a text fragment with a literal. -/
def lowerEq (x pat : Str) : Prop :=
  x.map Char.toLower = pat.map Char.toLower

/-- The optional scheme of a shape. -/
def schemeLits : List Str := [[], ("http://").toList, ("https://").toList]

/-- The optional subdomain of a shape. -/
def subLits : List Str := [[], ("www.").toList, ("m.").toList]

/-- The two host literals (followed by the path separator). -/
def hostLits : List Str := [("youtube.com/").toList, ("youtu.be/").toList]

/-- The five path-form literals preceding the video id. -/
def pathLits : List Str :=
  [("watch?v=").toList, ("shorts/").toList, ("embed/").toList, ("v/").toList, []]

/-- The text `t` contains one of the five recognized YouTube URL
shapes. -/
def ContainsYouTubeShape (t : Str) : Prop :=
  ∃ pre sch sub host pl vid rest,
    t = pre ++ sch ++ sub ++ host ++ pl ++ vid ++ rest ∧
    (∃ a ∈ schemeLits, lowerEq sch a) ∧
    (∃ b ∈ subLits, lowerEq sub b) ∧
    (∃ hl ∈ hostLits, lowerEq host hl) ∧
    (∃ p ∈ pathLits, lowerEq pl p) ∧
    vid.length = 11 ∧ vid.all wordOrDash = true

/-! ## Callback data (main.py lines 53-59 and 68-73) -/

/-- The two download modes offered by the inline buttons. -/
inductive Mode where
  | audio
  | video
deriving DecidableEq

/-- The literal mode string interpolated into the button data. -/
def Mode.str : Mode → Str
  | .audio => ("audio").toList
  | .video => ("video").toList

/-- Embedding of the button construction of `handle_text` (main.py
lines 55-56): `f"yt|{mode}|{message.message_id}"`. -/
def mkCallbackData (m : Mode) (msgId : Nat) : Str :=
  ("yt|").toList ++ m.str ++ '|' :: toDecimal msgId

/-- Exact (case-sensitive) literal match, returning the rest. -/
def dropLit : Str → Str → Option Str
  | [], s => some s
  | _ :: _, [] => none
  | p :: ps, c :: cs => if c = p then dropLit ps cs else none

/-- ASCII decimal digit test; models `\d` on the inputs considered
(the button data is ASCII). -/
def isDigitChar (c : Char) : Bool := '0' ≤ c && c ≤ '9'

/-- Embedding of the dispatch regex `^yt\|(?:audio|video)\|\d+$` of
`callback_download` (main.py line 68). -/
def acceptCallback (s : Str) : Bool :=
  match dropLit (("yt|").toList) s with
  | none => false
  | some r =>
    let afterMode :=
      match dropLit (("audio|").toList) r with
      | some r2 => some r2
      | none => dropLit (("video|").toList) r
    match afterMode with
    | none => false
    | some d => decide (d ≠ []) && d.all isDigitChar

/-- Model of Python `str.split('|')`. -/
def splitPipe (s : Str) : List Str :=
  match s with
  | [] => [[]]
  | c :: cs =>
    let rest := splitPipe cs
    if c = '|' then [] :: rest
    else
      match rest with
      | [] => [[c]]
      | r :: rs => (c :: r) :: rs

/-- Value of an ASCII digit string, most significant digit first. -/
def digitsVal (l : Str) : Nat :=
  l.foldl (fun a c => 10 * a + (c.toNat - 48)) 0

/-- Model of Python `int` on a string: the value of a nonempty ASCII
digit string, `none` (ValueError) otherwise; sufficient for the digit
strings produced by the buttons. -/
def parseInt (s : Str) : Option Nat :=
  if s ≠ [] ∧ s.all isDigitChar then some (digitsVal s) else none

/-- Embedding of the parsing steps of `callback_download` (main.py
lines 71-73): `data = callback_query.data.split("|")`,
`mode = data[1]`, `orig_msg_id = int(data[2])`; `none` models an
escaping exception (IndexError / ValueError). -/
def parseCallbackData (s : Str) : Option (Str × Nat) :=
  let parts := splitPipe s
  match parts.get? 1, parts.get? 2 with
  | some modeStr, some idStr =>
    match parseInt idStr with
    | some n => some (modeStr, n)
    | none => none
  | _, _ => none

/-! ## Orchestrator models (`download_and_send`, `callback_download`)

The effects of the per-request flow are modelled as a trace of events.
Each external call consults the request environment for its outcome;
`.error e` models the call raising an exception with message `e`. -/

/-- Observable events of one request. -/
inductive Ev where
  | answerCb (text : Str) (alert : Bool)
  | sendMsg (text : Str) (ok : Bool)
  | sendAudio (path : Str) (caption : Str) (ok : Bool)
  | sendVideo (path : Str) (caption : Str) (ok : Bool)
  | delProcessing (ok : Bool)
  | removeFile (path : Str) (ok : Bool)
  | invokeDownload (url : Str) (mode : Str)
  | replyText (text : Str)
deriving DecidableEq

/-- The requesting user (`callback_query.from_user`). -/
structure Requester where
  first_name : Str
  id : Nat

/-- Metadata dictionary as consumed by `download_and_send`
(`res.get("metadata", {})`): `title` and `uploader` may be falsy,
`duration` may be `None`. -/
structure Meta where
  title : Option Str
  uploader : Option Str
  duration : Option Int
  webpage_url : Str

/-- Python truthiness of an optional string: `None` and `""` are
falsy. -/
def strFalsy : Option Str → Bool
  | none => true
  | some s => s.isEmpty

/-- Embedding of the caption construction of `download_and_send`
(modules/youtube.py lines 112-120). -/
def buildCaption (meta : Meta) (requester : Requester) : Str :=
  let title :=
    match meta.title with
    | some t => if t = [] then ("Unknown title").toList else t
    | none => ("Unknown title").toList
  let line1 := ("**").toList ++ escape_md title ++ ("**").toList
  let uploaderLines :=
    match meta.uploader with
    | some u => if u = [] then [] else [("Uploader: ").toList ++ escape_md u]
    | none => []
  let durationLines :=
    match meta.duration with
    | some d => [("Duration: ").toList ++ format_seconds (some d)]
    | none => []
  let mention := '[' :: escape_md requester.first_name ++ ("](tg://user?id=").toList
      ++ toDecimal requester.id ++ [')']
  let lines := line1 :: uploaderLines ++ durationLines
      ++ [("Requested by: ").toList ++ mention]
      ++ [("Source: ").toList ++ escape_md meta.webpage_url]
  (lines.intersperse ['\n']).flatten

/-- Environment of one `download_and_send` run: the download result and
the outcome of each client/filesystem call it may make. -/
structure DsEnv where
  download : Except Str (Str × Meta)
  fileExists : Bool
  sendNoFile : Except Str Unit
  sendFile : Except Str Unit
  delProc : Bool
  removeOk : Bool
  sendElapsed : Except Str Unit
  sendErr : Except Str Unit
  elapsed : Nat

/-- The `except Exception as e:` handler of `download_and_send`
(modules/youtube.py lines 150-152): best-effort delete of the
processing message, then a text message whose body is `str(e)`; a
failure of that last send escapes. -/
def dsExceptBranch (env : DsEnv) (evs : List Ev) (e : Str) :
    List Ev × Except Str Unit :=
  match env.sendErr with
  | .ok () => (evs ++ [.delProcessing env.delProc, .sendMsg e true], .ok ())
  | .error e2 => (evs ++ [.delProcessing env.delProc, .sendMsg e false], .error e2)

/-- Embedding of `download_and_send` (modules/youtube.py lines
91-152). -/
def download_and_send (env : DsEnv) (mode : Str) (requester : Requester) :
    List Ev × Except Str Unit :=
  match env.download with
  | .error e => dsExceptBranch env [] e
  | .ok (filepath, meta) =>
    if filepath = [] ∨ env.fileExists = false then
      match env.sendNoFile with
      | .error e => dsExceptBranch env [.sendMsg (("❌ Download failed or file not found.").toList) false] e
      | .ok () =>
        ([.sendMsg (("❌ Download failed or file not found.").toList) true,
          .delProcessing env.delProc], .ok ())
    else
      let caption := buildCaption meta requester
      let fileEv : Bool → Ev :=
        if mode = ("audio").toList then .sendAudio filepath caption
        else .sendVideo filepath caption
      match env.sendFile with
      | .error e => dsExceptBranch env [fileEv false] e
      | .ok () =>
        let evs1 := [fileEv true, .delProcessing env.delProc,
                     .removeFile filepath env.removeOk]
        match env.sendElapsed with
        | .error e =>
          dsExceptBranch env
            (evs1 ++ [.sendMsg (("✅ Uploaded in ").toList ++ toDecimal env.elapsed ++ ("s.").toList) false]) e
        | .ok () =>
          (evs1 ++ [.sendMsg (("✅ Uploaded in ").toList ++ toDecimal env.elapsed ++ ("s.").toList) true],
           .ok ())

/-- A message as seen by `callback_download`: only its `text` attribute
is read. -/
structure Msg where
  text : Option Str

/-- Environment of one `callback_download` run. -/
structure CbEnv where
  getMessages : Except Str (Option Msg)
  replyTo : Option Msg
  answerAlert : Except Str Unit
  answerPrep : Except Str Unit
  sendProcessing : Except Str Unit
  ds : DsEnv

/-- Python `str.strip()`: drop leading and trailing whitespace. -/
def pyStrip (s : Str) : Str :=
  let ws : Char → Bool := fun c =>
    c = ' ' || c = '\t' || c = '\n' || c = '\x0d' || c = '\x0b' || c = '\x0c'
  ((s.dropWhile ws).reverse.dropWhile ws).reverse

/-- The outer `except Exception as e:` of `callback_download` (main.py
lines 106-110): a best-effort reply with the error text; its own
failure is swallowed, so the handler never lets an exception escape. -/
def cbExceptBranch (evs : List Ev) (e : Str) : List Ev :=
  evs ++ [.replyText (("Error: ").toList ++ e)]

/-- Embedding of `callback_download` (main.py lines 69-110): parse the
button data; recover the original message by id, falling back to the
reply-chain when the lookup raises; alert and stop when it is
unrecoverable or has no text; otherwise answer, post the processing
message and run `download_and_send`. -/
def callback_download (env : CbEnv) (data : Str) (requester : Requester) : List Ev :=
  match parseCallbackData data with
  | none => cbExceptBranch [] (("CallbackParseError").toList)
  | some (mode, _origMsgId) =>
    let original : Option Msg :=
      match env.getMessages with
      | .ok m => m
      | .error _ => env.replyTo
    match original with
    | none => [.answerCb (("Original link not found.").toList) true]
    | some msg =>
      if strFalsy msg.text then
        [.answerCb (("Original link not found.").toList) true]
      else
        let url := pyStrip (msg.text.getD [])
        match env.answerPrep with
        | .error e => cbExceptBranch [] e
        | .ok () =>
          let evs0 := [Ev.answerCb (("Preparing ").toList ++ mode ++ (" download...").toList) false]
          match env.sendProcessing with
          | .error e => cbExceptBranch evs0 e
          | .ok () =>
            let evs1 := evs0 ++ [Ev.sendMsg (("⏳ Processing... Please wait.").toList) true,
                                 Ev.invokeDownload url mode]
            let r := download_and_send env.ds mode requester
            match r.2 with
            | .ok () => evs1 ++ r.1
            | .error e => cbExceptBranch (evs1 ++ r.1) e

/-- Decidable equality of `Except` results (for concrete evaluation of
worker runs). -/
instance {ε α : Type} [DecidableEq ε] [DecidableEq α] : DecidableEq (Except ε α) :=
  fun a b =>
    match a, b with
    | .error e, .error f =>
      if h : e = f then isTrue (by rw [h]) else isFalse (fun c => h (by injection c))
    | .ok x, .ok y =>
      if h : x = y then isTrue (by rw [h]) else isFalse (fun c => h (by injection c))
    | .error _, .ok _ => isFalse (fun c => Except.noConfusion c)
    | .ok _, .error _ => isFalse (fun c => Except.noConfusion c)

/-! ## Theorems -/

/-- The duration-rendering rule stated by the specification: hours,
minutes and seconds of `n`, with leading zero-valued units omitted. -/
def specDurationRender (n : Nat) : Str :=
  let hours := n / 3600
  let minutes := n % 3600 / 60
  let secs := n % 60
  if hours ≠ 0 then
    toDecimal hours ++ ("h ").toList ++ toDecimal minutes ++ ("m ").toList
      ++ toDecimal secs ++ ['s']
  else if minutes ≠ 0 then
    toDecimal minutes ++ ("m ").toList ++ toDecimal secs ++ ['s']
  else
    toDecimal secs ++ ['s']

/-- Decimal rendering of a nonnegative integer is the `Nat` rendering. -/
theorem intToDecimal_ofNat (k : Nat) : intToDecimal (k : Int) = toDecimal k := by
  unfold intToDecimal
  rw [if_neg (by omega)]
  rfl

/-- C5: `format_seconds` renders `n` whole seconds as hours/minutes/
seconds with leading zero-valued units omitted, and renders an
unparsable duration as `"Unknown"`. -/
theorem format_seconds_correct (n : Nat) :
    format_seconds (some (n : Int)) = specDurationRender n ∧
    format_seconds none = ("Unknown").toList := by
  refine ⟨?_, rfl⟩
  show (let s1 := Int.fmod (n : Int) 60
        let m0 := Int.fdiv (n : Int) 60
        let m1 := Int.fmod m0 60
        let h := Int.fdiv m0 60
        if h ≠ 0 then
          intToDecimal h ++ ("h ").toList ++ intToDecimal m1 ++ ("m ").toList
            ++ intToDecimal s1 ++ ['s']
        else if m1 ≠ 0 then
          intToDecimal m1 ++ ("m ").toList ++ intToDecimal s1 ++ ['s']
        else
          intToDecimal s1 ++ ['s']) = specDurationRender n
  have hs1 : Int.fmod (n : Int) 60 = ((n % 60 : Nat) : Int) := (Int.ofNat_fmod n 60).symm
  have hm0 : Int.fdiv (n : Int) 60 = ((n / 60 : Nat) : Int) := (Int.ofNat_fdiv n 60).symm
  have hm1 : Int.fmod ((n / 60 : Nat) : Int) 60 = ((n / 60 % 60 : Nat) : Int) :=
    (Int.ofNat_fmod (n / 60) 60).symm
  have hh : Int.fdiv ((n / 60 : Nat) : Int) 60 = ((n / 3600 : Nat) : Int) := by
    have h := (Int.ofNat_fdiv (n / 60) 60).symm
    have h2 : n / 60 / 60 = n / 3600 := by
      rw [Nat.div_div_eq_div_mul]
    rw [h2] at h
    exact_mod_cast h
  have hmin : n / 60 % 60 = n % 3600 / 60 := by
    have := Nat.mod_mul_right_div_self n 60 60
    simpa using this.symm
  simp only [hs1, hm0, hm1, hh, hmin, intToDecimal_ofNat, ne_eq,
    Int.natCast_eq_zero, specDurationRender]

/-! ### C1 — the size ceiling -/

/-- A video stream for the concrete C1 runs. -/
def wStream : YtStream := { onlyAudio := false, abr := 0, resolution := 360 }

/-- Video info for the concrete C1 runs. -/
def wInfo : VideoInfo :=
  { streams := [wStream], title := ['t'], author := ['a'], length := 5 }

/-- Environment of a download whose file is exactly 2 GiB
(2147483648 bytes) at a provider path that sanitization leaves
unchanged. -/
def c1TwoGiBEnv : PtEnv :=
  { resolve := .ok wInfo, downloaded := .ok (),
    providerPath := ("d/a.mp4").toList, size := 2147483648 }

/-- Environment of a download whose file is exactly at the code's
ceiling `2000 * 1024 * 1024` bytes. -/
def c1CeilEnv : PtEnv :=
  { resolve := .ok wInfo, downloaded := .ok (),
    providerPath := ("d/a.mp4").toList, size := 2000 * 1024 * 1024 }

/-- C1 counterexample: a file of exactly 2 GiB does not pass the size
check — the run fails with the FileTooLarge error, because the code's
ceiling `MAX_TELEGRAM_SIZE = 2000 * 1024 * 1024 = 2097152000` bytes is
below 2 GiB = 2147483648 bytes. -/
theorem c1_counterexample :
    c1TwoGiBEnv.size = 2147483648 ∧
    MAX_TELEGRAM_SIZE = 2097152000 ∧
    (pytube_download [] c1TwoGiBEnv (("u").toList) (("video").toList)).2 =
      .error (("❌ File too large for Telegram (max 2GB)").toList) := by
  refine ⟨rfl, rfl, ?_⟩
  decide

/-- C1 (amended): after a completed download — the file is on disk in
the post-state — the worker fails with the FileTooLarge error for any
size strictly above `MAX_TELEGRAM_SIZE = 2000 * 1024 * 1024` bytes
(2000 MiB, not 2 GiB) and succeeds for any size at most that ceiling. -/
theorem pytube_download_size_ceiling (disk : Disk) (env : PtEnv) (url mode : Str)
    (yt : VideoInfo) (st : YtStream)
    (hres : env.resolve = .ok yt)
    (hsel : pytubeSelectStream mode yt.streams = .ok st)
    (hdl : env.downloaded = .ok ())
    (hsafe : sanitize_filename env.providerPath = env.providerPath) :
    (pytube_download disk env url mode).1 = (env.providerPath, env.size) :: disk ∧
    (env.size > MAX_TELEGRAM_SIZE →
      (pytube_download disk env url mode).2 =
        .error (("❌ File too large for Telegram (max 2GB)").toList)) ∧
    (env.size ≤ MAX_TELEGRAM_SIZE →
      (pytube_download disk env url mode).2 =
        .ok { filepath := env.providerPath, title := yt.title,
              uploader := yt.author, duration := yt.length,
              webpage_url := url }) := by
  have hfind : getsize ((env.providerPath, env.size) :: disk) env.providerPath
      = .ok env.size := by
    unfold getsize
    simp [List.find?]
  unfold pytube_download
  simp only [hres, hsel, hdl, hsafe, hfind]
  by_cases hgt : env.size > MAX_TELEGRAM_SIZE
  · simp only [if_pos hgt]
    exact ⟨trivial, fun _ => trivial, fun hle => absurd hgt (by omega)⟩
  · simp only [if_neg hgt]
    exact ⟨trivial, fun h => absurd h hgt, fun _ => trivial⟩

/-- C1 witness: a concrete run at exactly the code's ceiling passes,
with the file on disk. -/
theorem pytube_download_size_ceiling_witness :
    (pytube_download [] c1CeilEnv (("u").toList) (("video").toList)).1 =
      [(c1CeilEnv.providerPath, c1CeilEnv.size)] ∧
    (pytube_download [] c1CeilEnv (("u").toList) (("video").toList)).2 =
      .ok { filepath := c1CeilEnv.providerPath, title := wInfo.title,
            uploader := wInfo.author, duration := wInfo.length,
            webpage_url := ("u").toList } := by
  have h := pytube_download_size_ceiling [] c1CeilEnv (("u").toList) (("video").toList)
    wInfo wStream rfl (by decide) rfl (by decide)
  exact ⟨h.1, h.2.2 (by decide)⟩

/-! ### C2 — filename sanitization -/

/-- The filename component of a split contains no path separator. -/
theorem pathSplit_tail_no_slash (p : Str) : '/' ∉ (pathSplit p).2 := by
  intro hmem
  unfold pathSplit at hmem
  dsimp only at hmem
  simp only [List.mem_reverse] at hmem
  have := List.mem_takeWhile_imp hmem
  simp [notSlash, isSlash] at this

/-- The reverse-takeWhile step of `pathSplit` recovers exactly `b` when
`b` is separator-free and `x` is empty or ends in a separator. -/
theorem pathSplit_tail_of_append (x b : Str) (hb : '/' ∉ b)
    (hx : x = [] ∨ x.getLast? = some '/') :
    ((x ++ b).reverse.takeWhile notSlash).reverse = b := by
  have hbrev : ∀ c ∈ b.reverse, notSlash c = true := by
    intro c hc
    have : c ∈ b := List.mem_reverse.mp hc
    simp only [notSlash, isSlash, Bool.not_eq_true']
    simp only [decide_eq_false_iff_not]
    intro hceq
    exact hb (hceq ▸ this)
  rw [List.reverse_append]
  rcases hx with hx | hx
  · subst hx
    simp only [List.reverse_nil, List.append_nil]
    rw [List.takeWhile_eq_self_iff.mpr hbrev, List.reverse_reverse]
  · rcases hxr : x.reverse with _ | ⟨c, cs⟩
    · exfalso
      have : x = [] := by simpa using congrArg List.reverse hxr
      simp [this] at hx
    · have hc : c = '/' := by
        have h2 := @List.getLast?_eq_head?_reverse _ x
        rw [hxr, hx] at h2
        simpa using h2.symm
      rw [List.takeWhile_append_of_pos hbrev,
        List.takeWhile_cons_of_neg (by simp [hc, notSlash, isSlash]),
        List.append_nil, List.reverse_reverse]

/-- Splitting `x ++ b` when `b` is separator-free and `x` is empty or
ends in a separator: the filename component is `b` and the directory
component is `x` with trailing separators stripped when appropriate. -/
theorem pathSplit_append (x b : Str) (hb : '/' ∉ b)
    (hx : x = [] ∨ x.getLast? = some '/') :
    pathSplit (x ++ b) =
      (if x ≠ [] ∧ x.any notSlash then (x.reverse.dropWhile isSlash).reverse else x, b) := by
  have ht := pathSplit_tail_of_append x b hb hx
  unfold pathSplit
  dsimp only
  rw [ht]
  have hh : (x ++ b).take ((x ++ b).length - b.length) = x := by
    have hlen : (x ++ b).length - b.length = x.length := by
      simp [List.length_append]
    rw [hlen]
    exact List.take_left x b
  rw [hh]

/-- Rejoining a normalized directory (ends in a separator only when it
is all separators) with a separator-free filename splits back to
exactly the same components. -/
theorem pathSplit_pathJoin (d b : Str)
    (hnorm : d.getLast? = some '/' → d.all isSlash = true)
    (hb : '/' ∉ b) :
    pathSplit (pathJoin d b) = (d, b) := by
  have hbh : ¬ b.head? = some '/' := by
    intro h
    exact hb (List.mem_of_mem_head? (Option.mem_def.mpr h))
  unfold pathJoin
  rw [if_neg hbh]
  by_cases hd0 : d = []
  · subst hd0
    rw [if_pos (Or.inl rfl)]
    have h := pathSplit_append [] b hb (Or.inl rfl)
    simpa using h
  · by_cases hdl : d.getLast? = some '/'
    · rw [if_pos (Or.inr hdl)]
      rw [pathSplit_append d b hb (Or.inr hdl)]
      have hall := hnorm hdl
      have hany : d.any notSlash = false := by
        refine List.any_eq_false.mpr ?_
        intro c hc
        have hcs := List.all_eq_true.mp hall c hc
        simp [notSlash, hcs]
      rw [if_neg (by simp [hany])]
    · rw [if_neg (by simp [hd0, hdl])]
      have hx : (d ++ ['/']).getLast? = some '/' := List.getLast?_concat d
      have hrw : d ++ '/' :: b = (d ++ ['/']) ++ b := by simp
      rw [hrw, pathSplit_append (d ++ ['/']) b hb (Or.inr hx)]
      obtain ⟨c, hc⟩ : ∃ c, d.getLast? = some c := by
        cases hgl : d.getLast? with
        | none => exact absurd (List.getLast?_eq_none_iff.mp hgl) hd0
        | some c => exact ⟨c, rfl⟩
      have hcd : c ∈ d := List.mem_of_getLast?_eq_some hc
      have hcs : notSlash c = true := by
        have : ¬ c = '/' := by
          intro h
          exact hdl (h ▸ hc)
        simp [notSlash, isSlash, this]
      rw [if_pos ⟨by simp, List.any_eq_true.mpr ⟨c, List.mem_append_left _ hcd, hcs⟩⟩]
      rw [List.reverse_append]
      have h1 : (['/'] : Str).reverse = ['/'] := rfl
      rw [h1]
      rw [List.singleton_append, List.dropWhile_cons_of_pos (by simp [isSlash])]
      rcases hdr : d.reverse with _ | ⟨c', cs⟩
      · exfalso
        have : d = [] := by simpa using congrArg List.reverse hdr
        exact hd0 this
      · have hc' : c' = c := by
          have h2 := @List.getLast?_eq_head?_reverse _ d
          rw [hdr, hc] at h2
          simpa using h2.symm
        have hf : isSlash c = false := by simpa [notSlash] using hcs
        rw [List.dropWhile_cons_of_neg (by simp [hc', hf])]
        rw [← hdr, List.reverse_reverse]

/-- The directory component produced by `pathSplit` ends in a slash
only when it consists entirely of slashes. -/
theorem pathSplit_head_norm (p : Str) :
    (pathSplit p).1.getLast? = some '/' → (pathSplit p).1.all isSlash = true := by
  have hgen : ∀ head : Str,
      (if head ≠ [] ∧ head.any notSlash then (head.reverse.dropWhile isSlash).reverse
       else head).getLast? = some '/' →
      (if head ≠ [] ∧ head.any notSlash then (head.reverse.dropWhile isSlash).reverse
       else head).all isSlash = true := by
    intro head hlast
    split at hlast
    case isTrue hcond =>
      exfalso
      rw [List.getLast?_eq_head?_reverse, List.reverse_reverse] at hlast
      have hd := List.head?_dropWhile_not isSlash head.reverse
      rw [hlast] at hd
      simp [isSlash] at hd
    case isFalse hcond =>
      rw [if_neg hcond]
      by_cases hhd : head = []
      · simp [hhd]
      · have hany : head.any notSlash = false := by
          cases hany : head.any notSlash
          · rfl
          · exact absurd ⟨hhd, hany⟩ hcond
        refine List.all_eq_true.mpr ?_
        intro c hc
        have := List.any_eq_false.mp hany c hc
        simpa [notSlash] using this
  intro hlast
  exact hgen _ hlast

/-- C2 counterexample: the claim's safe set is the ASCII class
`[A-Za-z0-9_\-. ]`, but `sanitize_filename` keeps the non-ASCII letter
é (a Python `\w` word character) unchanged instead of replacing it with
an underscore. -/
theorem c2_counterexample :
    specSafeChar 'é' = false ∧
    sanitize_filename (("é.mp3").toList) = ("é.mp3").toList := by
  exact ⟨by decide, by decide⟩

/-- C2 (amended): `sanitize_filename` preserves the directory component
and maps each filename character to itself when it is in the code's
safe set — Python word characters (`\w`, which beyond ASCII also
admits non-ASCII word characters such as é), hyphen, period, space —
and to an underscore otherwise; on ASCII characters the code's safe
set coincides with the claimed set `[A-Za-z0-9_\-. ]`. -/
theorem sanitize_filename_correct (p : Str) (_h : ∀ c ∈ p, c.toNat < 256) :
    (pathSplit (sanitize_filename p)).1 = (pathSplit p).1 ∧
    (pathSplit (sanitize_filename p)).2 =
      (pathSplit p).2.map (fun c => if keptBySanitize c then c else '_') ∧
    ∀ c : Char, c.toNat < 128 → keptBySanitize c = specSafeChar c := by
  have hb : '/' ∉ (pathSplit p).2.map (fun c => if keptBySanitize c then c else '_') := by
    intro hmem
    rcases List.mem_map.mp hmem with ⟨c, hc, heq⟩
    by_cases hk : keptBySanitize c = true
    · rw [if_pos hk] at heq
      exact pathSplit_tail_no_slash p (heq ▸ hc)
    · rw [if_neg hk] at heq
      exact absurd heq (by decide)
  have hs := pathSplit_pathJoin (pathSplit p).1
    ((pathSplit p).2.map (fun c => if keptBySanitize c then c else '_'))
    (pathSplit_head_norm p) hb
  have hsan : sanitize_filename p =
      pathJoin (pathSplit p).1
        ((pathSplit p).2.map (fun c => if keptBySanitize c then c else '_')) := rfl
  refine ⟨?_, ?_, ?_⟩
  · rw [hsan, hs]
  · rw [hsan, hs]
  · intro c hlt
    unfold keptBySanitize pyIsWordChar specSafeChar
    rw [Bool.eq_iff_iff]
    simp only [Bool.or_eq_true, Bool.and_eq_true, Bool.not_eq_true',
      decide_eq_true_eq, decide_eq_false_iff_not]
    omega

/-- C2 witness: a concrete Latin-1 path, its directory preserved and
its filename mapped characterwise. -/
theorem sanitize_filename_correct_witness :
    (pathSplit (sanitize_filename (("dl/a:b.mp4").toList))).1 =
      (pathSplit (("dl/a:b.mp4").toList)).1 ∧
    (pathSplit (sanitize_filename (("dl/a:b.mp4").toList))).2 =
      (pathSplit (("dl/a:b.mp4").toList)).2.map
        (fun c => if keptBySanitize c then c else '_') := by
  have h := sanitize_filename_correct (("dl/a:b.mp4").toList) (by decide)
  exact ⟨h.1, h.2.1⟩

/-! ### C3 — sanitization never renames the file on disk -/

/-- Every path is its directory prefix followed by its filename
component. -/
theorem pathSplit_tail_suffix (p : Str) :
    ∃ x, p = x ++ (pathSplit p).2 := by
  refine ⟨(p.reverse.dropWhile notSlash).reverse, ?_⟩
  unfold pathSplit
  dsimp only
  have h := List.takeWhile_append_dropWhile notSlash p.reverse
  calc p = p.reverse.reverse := (List.reverse_reverse p).symm
    _ = (p.reverse.takeWhile notSlash ++ p.reverse.dropWhile notSlash).reverse := by rw [h]
    _ = (p.reverse.dropWhile notSlash).reverse ++ (p.reverse.takeWhile notSlash).reverse := by
        rw [List.reverse_append]

/-- `pathJoin` always ends with the filename it was given. -/
theorem pathJoin_suffix (a b : Str) : ∃ x, pathJoin a b = x ++ b := by
  unfold pathJoin
  split
  · exact ⟨[], rfl⟩
  · split
    · exact ⟨a, rfl⟩
    · exact ⟨a ++ ['/'], by simp⟩

/-- Mapping the sanitization rule over a list that contains a
non-kept character changes the list. -/
theorem map_sanitize_ne (l : Str) (c : Char) (hc : c ∈ l)
    (hk : keptBySanitize c = false) :
    l.map (fun c => if keptBySanitize c then c else '_') ≠ l := by
  induction l with
  | nil => cases hc
  | cons a t ih =>
    intro heq
    simp only [List.map_cons, List.cons.injEq] at heq
    rcases List.mem_cons.mp hc with rfl | hct
    · rw [if_neg (by simp [hk])] at heq
      have : keptBySanitize '_' = true := by decide
      rw [← heq.1] at hk
      simp [this] at hk
    · exact ih hct heq.2

/-- C3: the worker never renames the downloaded file — the disk gains
exactly the provider-chosen path — while the path it size-checks and
returns is the sanitized string; when the provider filename contains a
character outside the safe set, that returned string differs from the
path of the file actually on disk. -/
theorem pytube_download_no_rename (disk : Disk) (env : PtEnv) (url mode : Str)
    (yt : VideoInfo) (st : YtStream)
    (hres : env.resolve = .ok yt)
    (hsel : pytubeSelectStream mode yt.streams = .ok st)
    (hdl : env.downloaded = .ok ()) :
    (pytube_download disk env url mode).1 = (env.providerPath, env.size) :: disk ∧
    (∀ res, (pytube_download disk env url mode).2 = .ok res →
      res.filepath = sanitize_filename env.providerPath) ∧
    ((∃ c ∈ (pathSplit env.providerPath).2, keptBySanitize c = false) →
      sanitize_filename env.providerPath ≠ env.providerPath) := by
  refine ⟨?_, ?_, ?_⟩
  · unfold pytube_download
    simp only [hres, hsel, hdl]
    cases hgs : getsize ((env.providerPath, env.size) :: disk)
        (sanitize_filename env.providerPath) with
    | error e => simp [hgs]
    | ok sz =>
      simp only [hgs]
      split <;> rfl
  · intro res hok
    unfold pytube_download at hok
    simp only [hres, hsel, hdl] at hok
    cases hgs : getsize ((env.providerPath, env.size) :: disk)
        (sanitize_filename env.providerPath) with
    | error e => simp [hgs] at hok
    | ok sz =>
      simp only [hgs] at hok
      split at hok
      · simp at hok
      · dsimp only at hok
        injection hok with hok
        rw [← hok]
  · rintro ⟨c, hc, hk⟩
    set p := env.providerPath with hp
    intro heq
    set t := (pathSplit p).2 with ht
    set mf := t.map (fun c => if keptBySanitize c then c else '_') with hmf
    obtain ⟨x, hx⟩ := pathSplit_tail_suffix p
    obtain ⟨y, hy⟩ := pathJoin_suffix (pathSplit p).1 mf
    have heq2 : y ++ mf = x ++ t := by
      rw [← hy, ← hx]
      exact heq
    have hmt : mf = t := List.append_inj_right' heq2 (by simp [hmf])
    exact map_sanitize_ne t c hc hk hmt

/-- Environment of a download whose provider-chosen filename contains
the unsafe character `?`. -/
def c3Env : PtEnv :=
  { resolve := .ok wInfo, downloaded := .ok (),
    providerPath := ("d/a b?.mp4").toList, size := 7 }

/-- C3 witness: a concrete run whose provider filename contains `?` —
the disk holds the provider path and the sanitized return value differs
from it. -/
theorem pytube_download_no_rename_witness :
    (pytube_download [] c3Env (("u").toList) (("video").toList)).1 =
      [(c3Env.providerPath, c3Env.size)] ∧
    sanitize_filename c3Env.providerPath ≠ c3Env.providerPath := by
  have h := pytube_download_no_rename [] c3Env (("u").toList) (("video").toList)
    wInfo wStream rfl (by decide) rfl
  exact ⟨h.1, h.2.2 (by decide)⟩

/-! ### C4 — escaping of reserved characters -/

/-- One-pass escaping with respect to a set `R` of characters: each
character in `R` gains a single backslash before it. -/
def escapeSinglePassOn (R : Str) : Str → Str
  | [] => []
  | c :: s =>
    if c ∈ R then '\\' :: c :: escapeSinglePassOn R s
    else c :: escapeSinglePassOn R s

/-- Unfolding of a `str.replace` pass over a leading character. -/
theorem replaceChar_cons (ch c : Char) (s : Str) :
    replaceChar ch (c :: s) = (if c = ch then ['\\', ch] else [c]) ++ replaceChar ch s := by
  simp [replaceChar]

/-- A `str.replace` pass for a fresh character commutes into the
one-pass form, enlarging the escaped set. -/
theorem replaceChar_singlePass (ch : Char) (R : Str) (hch : ch ∉ R)
    (hbs : ch ≠ '\\') (s : Str) :
    replaceChar ch (escapeSinglePassOn R s) = escapeSinglePassOn (R ++ [ch]) s := by
  induction s with
  | nil => rfl
  | cons c s ih =>
    by_cases hc : c ∈ R
    · have hcch : ¬ c = ch := fun h => hch (h ▸ hc)
      have e1 : escapeSinglePassOn R (c :: s) = '\\' :: c :: escapeSinglePassOn R s := by
        simp [escapeSinglePassOn, hc]
      have e2 : escapeSinglePassOn (R ++ [ch]) (c :: s)
          = '\\' :: c :: escapeSinglePassOn (R ++ [ch]) s := by
        simp [escapeSinglePassOn, List.mem_append_left [ch] hc]
      rw [e1, replaceChar_cons, replaceChar_cons,
        if_neg (fun h : '\\' = ch => hbs h.symm), if_neg hcch, ih, e2]
      rfl
    · by_cases hcch : c = ch
      · subst hcch
        have e1 : escapeSinglePassOn R (c :: s) = c :: escapeSinglePassOn R s := by
          simp [escapeSinglePassOn, hc]
        have e2 : escapeSinglePassOn (R ++ [c]) (c :: s)
            = '\\' :: c :: escapeSinglePassOn (R ++ [c]) s := by
          simp [escapeSinglePassOn]
        rw [e1, replaceChar_cons, if_pos rfl, ih, e2]
        rfl
      · have hnotin : c ∉ R ++ [ch] := by
          simp only [List.mem_append, List.mem_singleton]
          rintro (h | h)
          · exact hc h
          · exact hcch h
        have e1 : escapeSinglePassOn R (c :: s) = c :: escapeSinglePassOn R s := by
          simp [escapeSinglePassOn, hc]
        have e2 : escapeSinglePassOn (R ++ [ch]) (c :: s)
            = c :: escapeSinglePassOn (R ++ [ch]) s := by
          simp [escapeSinglePassOn, hnotin]
        rw [e1, replaceChar_cons, if_neg hcch, ih, e2]
        rfl

/-- Folding the sequential `str.replace` passes over a fresh,
duplicate-free character list is one-pass escaping. -/
theorem foldl_replaceChar (L : List Char) : ∀ R : Str, (∀ ch ∈ L, ch ∉ R) →
    L.Nodup → '\\' ∉ L → ∀ s : Str,
    L.foldl (fun t ch => replaceChar ch t) (escapeSinglePassOn R s) =
      escapeSinglePassOn (R ++ L) s := by
  induction L with
  | nil => intro R _ _ _ s; simp
  | cons ch L ih =>
    intro R hfresh hnd hbs s
    have h1 : replaceChar ch (escapeSinglePassOn R s) = escapeSinglePassOn (R ++ [ch]) s :=
      replaceChar_singlePass ch R (hfresh ch (List.mem_cons_self ch L))
        (fun h => hbs (h ▸ List.mem_cons_self ch L)) s
    simp only [List.foldl_cons, h1]
    have h2 := ih (R ++ [ch])
      (by
        intro c hcL
        simp only [List.mem_append, List.mem_singleton]
        rintro (hcR | rfl)
        · exact hfresh c (List.mem_cons_of_mem ch hcL) hcR
        · exact (List.nodup_cons.mp hnd).1 hcL)
      (List.nodup_cons.mp hnd).2
      (fun h => hbs (List.mem_cons_of_mem ch h)) s
    rw [h2, List.append_assoc]
    rfl

/-- One-pass escaping with respect to the empty set is the identity. -/
theorem escapeSinglePassOn_nil (s : Str) : escapeSinglePassOn [] s = s := by
  induction s with
  | nil => rfl
  | cons c t ih =>
    simp only [escapeSinglePassOn, List.not_mem_nil, if_false, ih]

/-- `escape_md` is one-pass escaping with respect to `RESERVED`. -/
theorem escape_md_eq_singlePass (s : Str) :
    escape_md s = escapeSinglePassOn RESERVED s := by
  by_cases hs : s = []
  · subst hs; rfl
  · unfold escape_md
    rw [if_neg hs]
    have h := foldl_replaceChar RESERVED []
      (by intro ch _ hc; cases hc) (by decide) (by decide) s
    rw [escapeSinglePassOn_nil] at h
    simpa using h

/-- Position `i` of `l` is immediately preceded by a backslash. -/
def atLeastOneBackslashAt (l : Str) (i : Nat) : Prop :=
  1 ≤ i ∧ l[i-1]? = some '\\'

/-- Position `i` of `l` is immediately preceded by exactly one
backslash: the character before it is a backslash and the one before
that (when it exists) is not. -/
def exactlyOneBackslashAt (l : Str) (i : Nat) : Prop :=
  1 ≤ i ∧ l[i-1]? = some '\\' ∧ (i = 1 ∨ ¬ l[i-2]? = some '\\')

instance (l : Str) (i : Nat) : Decidable (atLeastOneBackslashAt l i) := by
  unfold atLeastOneBackslashAt
  infer_instance

instance (l : Str) (i : Nat) : Decidable (exactlyOneBackslashAt l i) := by
  unfold exactlyOneBackslashAt
  infer_instance

/-- In a one-pass-escaped string, every escaped-set character is
immediately preceded by a backslash. -/
theorem singlePass_atLeastOne (R : Str) (hR : '\\' ∉ R) :
    ∀ (s : Str) (i : Nat) (c : Char), (escapeSinglePassOn R s)[i]? = some c → c ∈ R →
      atLeastOneBackslashAt (escapeSinglePassOn R s) i := by
  intro s
  induction s with
  | nil =>
    intro i c hget _
    simp [escapeSinglePassOn] at hget
  | cons a s ih =>
    intro i c hget hc
    by_cases ha : a ∈ R
    · have e : escapeSinglePassOn R (a :: s) = '\\' :: a :: escapeSinglePassOn R s := by
        simp [escapeSinglePassOn, ha]
      rw [e] at hget ⊢
      cases i with
      | zero =>
        exfalso
        simp only [List.getElem?_cons_zero, Option.some.injEq] at hget
        subst hget
        exact hR hc
      | succ i0 =>
        cases i0 with
        | zero => exact ⟨le_refl 1, by simp⟩
        | succ k =>
          have hget' : (escapeSinglePassOn R s)[k]? = some c := by simpa using hget
          obtain ⟨hk1, hkb⟩ := ih k c hget' hc
          obtain ⟨j, rfl⟩ : ∃ j, k = j + 1 := ⟨k - 1, by omega⟩
          exact ⟨by omega, by simpa using hkb⟩
    · have e : escapeSinglePassOn R (a :: s) = a :: escapeSinglePassOn R s := by
        simp [escapeSinglePassOn, ha]
      rw [e] at hget ⊢
      cases i with
      | zero =>
        exfalso
        simp only [List.getElem?_cons_zero, Option.some.injEq] at hget
        subst hget
        exact ha hc
      | succ k =>
        have hget' : (escapeSinglePassOn R s)[k]? = some c := by simpa using hget
        obtain ⟨hk1, hkb⟩ := ih k c hget' hc
        obtain ⟨j, rfl⟩ : ∃ j, k = j + 1 := ⟨k - 1, by omega⟩
        exact ⟨by omega, by simpa using hkb⟩

/-- In a one-pass-escaped backslash-free string, every escaped-set
character is immediately preceded by exactly one backslash. -/
theorem singlePass_exactlyOne (R : Str) (hR : '\\' ∉ R) :
    ∀ (s : Str), '\\' ∉ s → ∀ (i : Nat) (c : Char),
      (escapeSinglePassOn R s)[i]? = some c → c ∈ R →
      exactlyOneBackslashAt (escapeSinglePassOn R s) i := by
  intro s
  induction s with
  | nil =>
    intro _ i c hget _
    simp [escapeSinglePassOn] at hget
  | cons a s ih =>
    intro hbs i c hget hc
    have hbs' : '\\' ∉ s := fun h => hbs (List.mem_cons_of_mem a h)
    have hab : ¬ a = '\\' := fun h => hbs (h ▸ List.mem_cons_self a s)
    by_cases ha : a ∈ R
    · have e : escapeSinglePassOn R (a :: s) = '\\' :: a :: escapeSinglePassOn R s := by
        simp [escapeSinglePassOn, ha]
      rw [e] at hget ⊢
      cases i with
      | zero =>
        exfalso
        simp only [List.getElem?_cons_zero, Option.some.injEq] at hget
        subst hget
        exact hR hc
      | succ i0 =>
        cases i0 with
        | zero => exact ⟨le_refl 1, by simp, Or.inl rfl⟩
        | succ k =>
          have hget' : (escapeSinglePassOn R s)[k]? = some c := by simpa using hget
          obtain ⟨hk1, hkb, hkx⟩ := ih hbs' k c hget' hc
          obtain ⟨j, rfl⟩ : ∃ j, k = j + 1 := ⟨k - 1, by omega⟩
          refine ⟨by omega, by simpa using hkb, Or.inr ?_⟩
          cases j with
          | zero => simp [hab]
          | succ j2 =>
            rcases hkx with hk1' | hkx'
            · exact absurd hk1' (by omega)
            · simpa using hkx'
    · have e : escapeSinglePassOn R (a :: s) = a :: escapeSinglePassOn R s := by
        simp [escapeSinglePassOn, ha]
      rw [e] at hget ⊢
      cases i with
      | zero =>
        exfalso
        simp only [List.getElem?_cons_zero, Option.some.injEq] at hget
        subst hget
        exact ha hc
      | succ k =>
        have hget' : (escapeSinglePassOn R s)[k]? = some c := by simpa using hget
        obtain ⟨hk1, hkb, hkx⟩ := ih hbs' k c hget' hc
        obtain ⟨j, rfl⟩ : ∃ j, k = j + 1 := ⟨k - 1, by omega⟩
        refine ⟨by omega, by simpa using hkb, Or.inr ?_⟩
        cases j with
        | zero => simp [hab]
        | succ j2 =>
          rcases hkx with hk1' | hkx'
          · exact absurd hk1' (by omega)
          · simpa using hkx'

/-- C4 counterexample: on the input `\.` (a backslash followed by a
period) the single `str.replace` pass yields `\\.` — the reserved
character `.` in the output is preceded by two backslashes, not exactly
one. -/
theorem c4_counterexample :
    (escape_md ['\\', '.'])[2]? = some '.' ∧ '.' ∈ RESERVED ∧
    ¬ exactlyOneBackslashAt (escape_md ['\\', '.']) 2 := by
  decide

/-- C4 (amended): in `escape_md`'s output every occurrence of a
reserved character is immediately preceded by at least one backslash;
when the input contains no backslash of its own, it is preceded by
exactly one. -/
theorem escape_md_escaping (s : Str) :
    (∀ (i : Nat) (c : Char), (escape_md s)[i]? = some c → c ∈ RESERVED →
      atLeastOneBackslashAt (escape_md s) i) ∧
    ('\\' ∉ s → ∀ (i : Nat) (c : Char), (escape_md s)[i]? = some c → c ∈ RESERVED →
      exactlyOneBackslashAt (escape_md s) i) := by
  rw [escape_md_eq_singlePass]
  constructor
  · exact singlePass_atLeastOne RESERVED (by decide) s
  · intro hbs
    exact singlePass_exactlyOne RESERVED (by decide) s hbs

/-- C4 witness: on the backslash-free input `a.` the reserved period at
output position 2 is preceded by exactly one backslash. -/
theorem escape_md_escaping_witness :
    exactlyOneBackslashAt (escape_md ['a', '.']) 2 :=
  (escape_md_escaping ['a', '.']).2 (by decide) 2 '.' (by decide) (by decide)

/-! ### C8 — stream selection -/

/-- One `pickMaxBy` step always yields an element at least as large as
the new stream and as the accumulator, and comes from one of them. -/
theorem pickMaxBy_step (key : YtStream → Nat) (acc : Option YtStream) (s : YtStream) :
    ∃ u, pickMaxBy key acc s = some u ∧ key s ≤ key u ∧
      (∀ t, acc = some t → key t ≤ key u) ∧ (u = s ∨ acc = some u) := by
  cases acc with
  | none =>
    refine ⟨s, rfl, le_refl _, ?_, Or.inl rfl⟩
    intro t ht
    exact absurd ht (by simp)
  | some t =>
    by_cases h : key t ≤ key s
    · refine ⟨s, by simp [pickMaxBy, h], le_refl _, ?_, Or.inl rfl⟩
      intro t' ht'
      injection ht' with ht'
      exact ht' ▸ h
    · refine ⟨t, by simp [pickMaxBy, h], by omega, ?_, Or.inr rfl⟩
      intro t' ht'
      injection ht' with ht'
      exact ht' ▸ le_refl _

/-- A `pickMaxBy` scan never loses a non-empty accumulator. -/
theorem foldl_pickMaxBy_none (key : YtStream → Nat) :
    ∀ (l : List YtStream) (acc : Option YtStream),
      l.foldl (pickMaxBy key) acc = none → acc = none ∧ l = [] := by
  intro l
  induction l with
  | nil => intro acc h; exact ⟨h, rfl⟩
  | cons s t ih =>
    intro acc h
    rw [List.foldl_cons] at h
    obtain ⟨u, hu, _⟩ := pickMaxBy_step key acc s
    rw [hu] at h
    obtain ⟨h1, _⟩ := ih (some u) h
    cases h1

/-- The result of a `pickMaxBy` scan is a maximal element. -/
theorem foldl_pickMaxBy_max (key : YtStream → Nat) :
    ∀ (l : List YtStream) (acc : Option YtStream) (r : YtStream),
      l.foldl (pickMaxBy key) acc = some r →
      (r ∈ l ∨ acc = some r) ∧ (∀ x ∈ l, key x ≤ key r) ∧
      (∀ t, acc = some t → key t ≤ key r) := by
  intro l
  induction l with
  | nil =>
    intro acc r h
    simp only [List.foldl_nil] at h
    refine ⟨Or.inr h, fun x hx => absurd hx (List.not_mem_nil x), ?_⟩
    intro t ht
    rw [h] at ht
    injection ht with ht
    exact ht ▸ le_refl _
  | cons s t ih =>
    intro acc r h
    rw [List.foldl_cons] at h
    obtain ⟨u, hu, hsu, haccu, humem⟩ := pickMaxBy_step key acc s
    rw [hu] at h
    obtain ⟨hmem, hmax, hacc⟩ := ih (some u) r h
    have hur : key u ≤ key r := hacc u rfl
    refine ⟨?_, ?_, ?_⟩
    · rcases hmem with hmem | hmem
      · exact Or.inl (List.mem_cons_of_mem s hmem)
      · injection hmem with hmem
        rcases humem with hused | hacc'
        · refine Or.inl ?_
          rw [← hmem, hused]
          exact List.mem_cons_self s t
        · exact Or.inr (hmem ▸ hacc')
    · intro x hx
      rcases List.mem_cons.mp hx with rfl | hx
      · exact le_trans hsu hur
      · exact hmax x hx
    · intro t' ht'
      exact le_trans (haccu t' ht') hur

/-- C8: for mode audio the worker selects an audio-only stream of
maximal bitrate and raises the NoStreamFound error exactly when no
audio-only stream exists; for mode video it selects a stream of maximal
resolution and raises the NoStreamFound error exactly when no stream
exists. -/
theorem pytubeSelectStream_correct (streams : List YtStream) :
    (pytubeSelectStream (("audio").toList) streams =
        .error (("❌ No audio streams found").toList) ↔
      ∀ s ∈ streams, s.onlyAudio = false) ∧
    (∀ s, pytubeSelectStream (("audio").toList) streams = .ok s →
      s ∈ streams ∧ s.onlyAudio = true ∧
      ∀ t ∈ streams, t.onlyAudio = true → t.abr ≤ s.abr) ∧
    (pytubeSelectStream (("video").toList) streams =
        .error (("❌ No video streams found").toList) ↔
      streams = []) ∧
    (∀ s, pytubeSelectStream (("video").toList) streams = .ok s →
      s ∈ streams ∧ ∀ t ∈ streams, t.resolution ≤ s.resolution) := by
  have hmode : ¬ ("video").toList = ("audio").toList := by decide
  refine ⟨?_, ?_, ?_, ?_⟩
  · unfold pytubeSelectStream selectAudioStream
    rw [if_pos rfl]
    constructor
    · intro h
      cases hfold : (streams.filter (fun s => s.onlyAudio)).foldl
          (pickMaxBy (fun s => s.abr)) none with
      | some u => simp [hfold] at h
      | none =>
        intro s hs
        cases ha : s.onlyAudio
        · rfl
        · exfalso
          have hmem : s ∈ streams.filter (fun s => s.onlyAudio) :=
            List.mem_filter.mpr ⟨hs, ha⟩
          rw [(foldl_pickMaxBy_none _ _ _ hfold).2] at hmem
          cases hmem
    · intro h
      have hnil : streams.filter (fun s => s.onlyAudio) = [] := by
        rw [List.filter_eq_nil_iff]
        intro s hs
        simp [h s hs]
      rw [hnil]
      rfl
  · intro s hok
    unfold pytubeSelectStream selectAudioStream at hok
    rw [if_pos rfl] at hok
    cases hfold : (streams.filter (fun t => t.onlyAudio)).foldl
        (pickMaxBy (fun t => t.abr)) none with
    | none => simp [hfold] at hok
    | some u =>
      simp only [hfold] at hok
      have hus : u = s := by injection hok
      rw [hus] at hfold
      obtain ⟨hmem, hmax, _⟩ := foldl_pickMaxBy_max _ _ _ _ hfold
      have hsmem : s ∈ streams.filter (fun t => t.onlyAudio) := by
        rcases hmem with h | h
        · exact h
        · cases h
      obtain ⟨hs1, hs2⟩ := List.mem_filter.mp hsmem
      refine ⟨hs1, by simpa using hs2, ?_⟩
      intro t ht hta
      exact hmax t (List.mem_filter.mpr ⟨ht, by simp [hta]⟩)
  · unfold pytubeSelectStream get_highest_resolution
    rw [if_neg hmode]
    constructor
    · intro h
      cases hfold : streams.foldl (pickMaxBy (fun s => s.resolution)) none with
      | some u => simp [hfold] at h
      | none => exact (foldl_pickMaxBy_none _ _ _ hfold).2
    · intro h
      rw [h]
      rfl
  · intro s hok
    unfold pytubeSelectStream get_highest_resolution at hok
    rw [if_neg hmode] at hok
    cases hfold : streams.foldl (pickMaxBy (fun t => t.resolution)) none with
    | none => simp [hfold] at hok
    | some u =>
      simp only [hfold] at hok
      have hus : u = s := by injection hok
      rw [hus] at hfold
      obtain ⟨hmem, hmax, _⟩ := foldl_pickMaxBy_max _ _ _ _ hfold
      refine ⟨?_, hmax⟩
      rcases hmem with h | h
      · exact h
      · cases h

/-- C8 witness: on a concrete stream list the audio mode picks the
highest-bitrate audio-only stream and the video mode picks the
highest-resolution stream. -/
theorem pytubeSelectStream_correct_witness :
    (pytubeSelectStream (("audio").toList)
        [⟨true, 64, 0⟩, ⟨false, 0, 720⟩, ⟨true, 128, 0⟩] =
      .ok ⟨true, 128, 0⟩) ∧
    (⟨true, 128, 0⟩ : YtStream) ∈
        ([⟨true, 64, 0⟩, ⟨false, 0, 720⟩, ⟨true, 128, 0⟩] : List YtStream) ∧
    (∀ t ∈ ([⟨true, 64, 0⟩, ⟨false, 0, 720⟩, ⟨true, 128, 0⟩] : List YtStream),
      t.onlyAudio = true → t.abr ≤ (128 : Nat)) := by
  have h := (pytubeSelectStream_correct
    [⟨true, 64, 0⟩, ⟨false, 0, 720⟩, ⟨true, 128, 0⟩]).2.1
    ⟨true, 128, 0⟩ (by decide)
  exact ⟨by decide, h.1, h.2.2⟩

/-! ### C9 — callback data round trip -/

/-- Each decimal digit renders as an ASCII digit with the right code. -/
theorem digitChar_spec (m : Nat) (h : m < 10) :
    isDigitChar (digitChar m) = true ∧ (digitChar m).toNat = 48 + m := by
  interval_cases m <;> exact ⟨by decide, by decide⟩

/-- Shifting the accumulator of the digit-value fold. -/
theorem digitsVal_foldl_shift :
    ∀ (l : Str) (a : Nat),
      l.foldl (fun a c => 10 * a + (c.toNat - 48)) a =
        a * 10 ^ l.length + digitsVal l := by
  intro l
  induction l with
  | nil => intro a; simp [digitsVal]
  | cons c t ih =>
    intro a
    have h1 := ih (10 * a + (c.toNat - 48))
    have h2 := ih (c.toNat - 48)
    simp only [List.foldl_cons]
    rw [h1]
    have h3 : digitsVal (c :: t) = (c.toNat - 48) * 10 ^ t.length + digitsVal t := by
      unfold digitsVal
      simp only [List.foldl_cons]
      rw [show 10 * 0 + (c.toNat - 48) = c.toNat - 48 by omega]
      exact h2
    rw [h3, List.length_cons, pow_succ]
    ring

/-- `toDecimalAux` produces digits and prepends the value of `n`. -/
theorem toDecimalAux_spec (n : Nat) : ∀ acc : Str,
    (∀ c ∈ acc, isDigitChar c = true) →
    (∀ c ∈ toDecimalAux n acc, isDigitChar c = true) ∧
    digitsVal (toDecimalAux n acc) = n * 10 ^ acc.length + digitsVal acc := by
  induction n using Nat.strong_induction_on with
  | _ n ih =>
    intro acc hacc
    by_cases h0 : n = 0
    · subst h0
      rw [toDecimalAux, dif_pos rfl]
      exact ⟨hacc, by omega⟩
    · rw [toDecimalAux, dif_neg h0]
      have hlt : n / 10 < n := Nat.div_lt_self (Nat.pos_of_ne_zero h0) (by decide)
      have hdig := digitChar_spec (n % 10) (Nat.mod_lt _ (by decide))
      have hacc' : ∀ c ∈ digitChar (n % 10) :: acc, isDigitChar c = true := by
        intro c hc
        rcases List.mem_cons.mp hc with rfl | hc
        · exact hdig.1
        · exact hacc c hc
      have ih' := ih (n / 10) hlt (digitChar (n % 10) :: acc) hacc'
      refine ⟨ih'.1, ?_⟩
      rw [ih'.2]
      have hshift : digitsVal (digitChar (n % 10) :: acc) =
          (n % 10) * 10 ^ acc.length + digitsVal acc := by
        unfold digitsVal
        simp only [List.foldl_cons]
        rw [show 10 * 0 + ((digitChar (n % 10)).toNat - 48) = n % 10 by
          rw [hdig.2]; omega]
        exact digitsVal_foldl_shift acc (n % 10)
      rw [hshift, List.length_cons, pow_succ]
      have heq : n / 10 * (10 ^ acc.length * 10) +
          (n % 10 * 10 ^ acc.length + digitsVal acc) =
          (10 * (n / 10) + n % 10) * 10 ^ acc.length + digitsVal acc := by
        ring
      rw [heq, Nat.div_add_mod n 10]

/-- `toDecimalAux` never erases its accumulator. -/
theorem toDecimalAux_ne_nil (n : Nat) : ∀ acc : Str, acc ≠ [] ∨ n ≠ 0 →
    toDecimalAux n acc ≠ [] := by
  induction n using Nat.strong_induction_on with
  | _ n ih =>
    intro acc hd
    by_cases h0 : n = 0
    · subst h0
      rw [toDecimalAux, dif_pos rfl]
      rcases hd with h | h
      · exact h
      · exact absurd rfl h
    · rw [toDecimalAux, dif_neg h0]
      exact ih (n / 10) (Nat.div_lt_self (Nat.pos_of_ne_zero h0) (by decide))
        (digitChar (n % 10) :: acc) (Or.inl (by simp))

/-- Decimal rendering consists of digits only. -/
theorem toDecimal_digits (n : Nat) : ∀ c ∈ toDecimal n, isDigitChar c = true := by
  unfold toDecimal
  by_cases h0 : n = 0
  · rw [if_pos h0]
    intro c hc
    rcases List.mem_singleton.mp hc with rfl
    decide
  · rw [if_neg h0]
    exact (toDecimalAux_spec n [] (by intro c hc; cases hc)).1

/-- Python `int` recovers the value of a decimal rendering. -/
theorem parseInt_toDecimal (n : Nat) : parseInt (toDecimal n) = some n := by
  by_cases h0 : n = 0
  · subst h0
    decide
  · have hne : toDecimal n ≠ [] := by
      unfold toDecimal
      rw [if_neg h0]
      exact toDecimalAux_ne_nil n [] (Or.inr h0)
    unfold parseInt
    rw [if_pos ⟨hne, List.all_eq_true.mpr (toDecimal_digits n)⟩]
    congr 1
    unfold toDecimal
    rw [if_neg h0]
    have := (toDecimalAux_spec n [] (by intro c hc; cases hc)).2
    simpa [digitsVal] using this

/-- The pipe separator is not a digit, so decimal renderings are
pipe-free. -/
theorem toDecimal_no_pipe (n : Nat) : '|' ∉ toDecimal n := by
  intro h
  have := toDecimal_digits n '|' h
  simp [isDigitChar] at this

/-- `dropLit` consumes exactly its literal. -/
theorem dropLit_pref (pat s : Str) : dropLit pat (pat ++ s) = some s := by
  induction pat with
  | nil => rfl
  | cons c t ih => simp [dropLit, ih]

/-- One-step unfolding of `splitPipe`. -/
theorem splitPipe_cons (c : Char) (cs : Str) :
    splitPipe (c :: cs) =
      if c = '|' then [] :: splitPipe cs
      else
        match splitPipe cs with
        | [] => [[c]]
        | r :: rs => (c :: r) :: rs := rfl

/-- A pipe-free string is a single part. -/
theorem splitPipe_no_pipe (a : Str) (ha : '|' ∉ a) : splitPipe a = [a] := by
  induction a with
  | nil => rfl
  | cons c t ih =>
    have hc : ¬ c = '|' := fun h => ha (h ▸ List.mem_cons_self c t)
    have ht : '|' ∉ t := fun h => ha (List.mem_cons_of_mem c h)
    rw [splitPipe_cons, if_neg hc, ih ht]

/-- Splitting at an explicit pipe after a pipe-free part. -/
theorem splitPipe_append (a r : Str) (ha : '|' ∉ a) :
    splitPipe (a ++ '|' :: r) = a :: splitPipe r := by
  induction a with
  | nil =>
    show splitPipe ('|' :: r) = [] :: splitPipe r
    rw [splitPipe_cons, if_pos rfl]
  | cons c t ih =>
    have hc : ¬ c = '|' := fun h => ha (h ▸ List.mem_cons_self c t)
    have ht : '|' ∉ t := fun h => ha (List.mem_cons_of_mem c h)
    have ih' := ih ht
    show splitPipe (c :: (t ++ '|' :: r)) = (c :: t) :: splitPipe r
    rw [splitPipe_cons, if_neg hc, ih']

/-- The orchestrator's split-and-parse of a constructed button datum
recovers the mode string and the message id. -/
theorem mkCallbackData_parses (m : Mode) (n : Nat) :
    parseCallbackData (mkCallbackData m n) = some (m.str, n) := by
  unfold parseCallbackData mkCallbackData
  have hsplit : splitPipe (("yt|").toList ++ m.str ++ '|' :: toDecimal n) =
      [("yt").toList, m.str, toDecimal n] := by
    have hm : '|' ∉ m.str := by
      cases m <;> decide
    have h1 : ("yt|").toList ++ m.str ++ '|' :: toDecimal n =
        ("yt").toList ++ '|' :: (m.str ++ '|' :: toDecimal n) := by
      cases m <;> rfl
    rw [h1, splitPipe_append _ _ (by decide),
      splitPipe_append _ _ hm, splitPipe_no_pipe _ (toDecimal_no_pipe n)]
  rw [hsplit]
  show (match parseInt (toDecimal n) with
        | some k => some (m.str, k)
        | none => none) = some (m.str, n)
  rw [parseInt_toDecimal n]

/-- C9: for every mode and message id, the button datum `yt|mode|id`
matches the dispatch regex `^yt\|(?:audio|video)\|\d+$`, and the
orchestrator's split-and-parse recovers exactly the same mode string
and message id. -/
theorem callback_data_roundtrip (m : Mode) (n : Nat) :
    acceptCallback (mkCallbackData m n) = true ∧
    parseCallbackData (mkCallbackData m n) = some (m.str, n) := by
  have hne : toDecimal n ≠ [] := by
    by_cases h0 : n = 0
    · subst h0; decide
    · unfold toDecimal
      rw [if_neg h0]
      exact toDecimalAux_ne_nil n [] (Or.inr h0)
  have hdigits : (toDecimal n).all isDigitChar = true :=
    List.all_eq_true.mpr (toDecimal_digits n)
  refine ⟨?_, mkCallbackData_parses m n⟩
  unfold acceptCallback mkCallbackData
  cases m with
    | audio =>
      have h1 : ("yt|").toList ++ Mode.str Mode.audio ++ '|' :: toDecimal n =
          ("yt|").toList ++ (("audio|").toList ++ toDecimal n) := rfl
      rw [h1]
      simp only [dropLit_pref]
      simp [hne, hdigits]
    | video =>
      have h1 : ("yt|").toList ++ Mode.str Mode.video ++ '|' :: toDecimal n =
          ("yt|").toList ++ (("video|").toList ++ toDecimal n) := rfl
      have h2 : dropLit (("audio|").toList) (("video|").toList ++ toDecimal n) = none := rfl
      rw [h1]
      simp only [dropLit_pref, h2]
      simp [hne, hdigits]

/-! ### C7 — per-request error handling of `download_and_send` -/

/-- The body of a plain user-facing text message event. -/
def evText : Ev → Option Str
  | .sendMsg t _ => some t
  | _ => none

/-- Whether an event is a successful file upload. -/
def isUpload : Ev → Bool
  | .sendAudio _ _ ok => ok
  | .sendVideo _ _ ok => ok
  | _ => false

/-- C7: for a worker failure or an upload-delivery failure, provided
the messaging platform accepts the recovery message, `download_and_send`
returns without an escaping exception, the processing-message deletion
is attempted, exactly one user-facing text message is sent and its body
is the error's description `str(e)`, and no file is uploaded. -/
theorem download_and_send_error_handling (env : DsEnv) (mode : Str)
    (req : Requester) (e : Str)
    (hfail : env.download = .error e ∨
      (∃ fp meta, env.download = .ok (fp, meta) ∧ fp ≠ [] ∧
        env.fileExists = true ∧ env.sendFile = .error e))
    (hrecover : env.sendErr = .ok ()) :
    (download_and_send env mode req).2 = .ok () ∧
    Ev.delProcessing env.delProc ∈ (download_and_send env mode req).1 ∧
    (download_and_send env mode req).1.filterMap evText = [e] ∧
    (download_and_send env mode req).1.all (fun ev => !isUpload ev) = true := by
  rcases hfail with hdl | ⟨fp, meta, hdl, hfp, hfe, hsf⟩
  · unfold download_and_send
    rw [hdl]
    unfold dsExceptBranch
    rw [hrecover]
    refine ⟨rfl, by simp, ?_, by simp [evText, isUpload]⟩
    simp [evText]
  · unfold download_and_send
    simp only [hdl]
    rw [if_neg (by simp [hfp, hfe])]
    by_cases hm : mode = ("audio").toList
    · rw [if_pos hm]
      simp only [hsf]
      unfold dsExceptBranch
      simp only [hrecover]
      exact ⟨trivial, by simp, by simp [evText], by simp [evText, isUpload]⟩
    · rw [if_neg hm]
      simp only [hsf]
      unfold dsExceptBranch
      simp only [hrecover]
      exact ⟨trivial, by simp, by simp [evText], by simp [evText, isUpload]⟩

/-- A concrete `download_and_send` environment whose worker fails with
the NoStreamFound error. -/
def c7Env : DsEnv :=
  { download := .error (("❌ No audio streams found").toList),
    fileExists := false, sendNoFile := .ok (), sendFile := .ok (),
    delProc := true, removeOk := true, sendElapsed := .ok (),
    sendErr := .ok (), elapsed := 3 }

/-- C7 witness: the concrete NoStreamFound failure is fully recovered —
status delete attempted, one error text sent, nothing uploaded. -/
theorem download_and_send_error_handling_witness :
    (download_and_send c7Env (("audio").toList) ⟨['u'], 9⟩).2 = .ok () ∧
    Ev.delProcessing c7Env.delProc ∈
      (download_and_send c7Env (("audio").toList) ⟨['u'], 9⟩).1 ∧
    (download_and_send c7Env (("audio").toList) ⟨['u'], 9⟩).1.filterMap evText =
      [(("❌ No audio streams found").toList)] ∧
    (download_and_send c7Env (("audio").toList) ⟨['u'], 9⟩).1.all
      (fun ev => !isUpload ev) = true :=
  download_and_send_error_handling c7Env (("audio").toList) ⟨['u'], 9⟩
    (("❌ No audio streams found").toList) (Or.inl rfl) rfl

/-! ### C10 — unrecoverable original message -/

/-- C10: when the original message can be recovered neither by direct
lookup nor via the reply-chain fallback, or the recovered message has
no text, the handler's entire trace is the "Original link not found."
alert — no processing message is sent and the download worker is never
invoked. -/
theorem callback_download_lookup_failure (env : CbEnv) (m : Mode) (n : Nat)
    (req : Requester)
    (hlookup : (∃ e, env.getMessages = .error e ∧
        (env.replyTo = none ∨ ∃ msg, env.replyTo = some msg ∧ strFalsy msg.text = true)) ∨
      env.getMessages = .ok none ∨
      (∃ msg, env.getMessages = .ok (some msg) ∧ strFalsy msg.text = true)) :
    callback_download env (mkCallbackData m n) req =
      [Ev.answerCb (("Original link not found.").toList) true] ∧
    (∀ url mo, Ev.invokeDownload url mo ∉ callback_download env (mkCallbackData m n) req) ∧
    (∀ t ok, Ev.sendMsg t ok ∉ callback_download env (mkCallbackData m n) req) := by
  have hmain : callback_download env (mkCallbackData m n) req =
      [Ev.answerCb (("Original link not found.").toList) true] := by
    unfold callback_download
    simp only [mkCallbackData_parses]
    rcases hlookup with ⟨e, hge, hrt⟩ | hok | ⟨msg, hok, hf⟩
    · simp only [hge]
      rcases hrt with hrt | ⟨msg, hrt, hf⟩
      · simp [hrt]
      · simp [hrt, hf]
    · simp [hok]
    · simp [hok, hf]
  refine ⟨hmain, ?_, ?_⟩
  · intro url mo
    rw [hmain]
    simp
  · intro t ok
    rw [hmain]
    simp

/-- A concrete `callback_download` environment whose direct lookup
returns a message without text and whose fallback is absent. -/
def c10Env : CbEnv :=
  { getMessages := .ok (some { text := none }), replyTo := none,
    answerAlert := .ok (), answerPrep := .ok (), sendProcessing := .ok (),
    ds := { download := .error ['x'], fileExists := false,
            sendNoFile := .ok (), sendFile := .ok (), delProc := true,
            removeOk := true, sendElapsed := .ok (), sendErr := .ok (),
            elapsed := 0 } }

/-- C10 witness: the concrete unrecoverable lookup produces exactly the
alert and nothing else. -/
theorem callback_download_lookup_failure_witness :
    callback_download c10Env (mkCallbackData Mode.video 5) ⟨['u'], 9⟩ =
      [Ev.answerCb (("Original link not found.").toList) true] ∧
    (∀ url mo, Ev.invokeDownload url mo ∉
      callback_download c10Env (mkCallbackData Mode.video 5) ⟨['u'], 9⟩) :=
  ⟨(callback_download_lookup_failure c10Env Mode.video 5 ⟨['u'], 9⟩
      (Or.inr (Or.inr ⟨{ text := none }, rfl, rfl⟩))).1,
   (callback_download_lookup_failure c10Env Mode.video 5 ⟨['u'], 9⟩
      (Or.inr (Or.inr ⟨{ text := none }, rfl, rfl⟩))).2.1⟩

/-! ### C6 — link detection: the regex recognizes exactly the five
URL shapes -/

/-- Soundness of `dropCI`: a successful match splits the input into a
case-insensitive copy of the literal and the rest. -/
theorem dropCI_sound : ∀ (pat s r : Str), dropCI pat s = some r →
    ∃ x, s = x ++ r ∧ lowerEq x pat := by
  intro pat
  induction pat with
  | nil =>
    intro s r h
    injection h with h
    exact ⟨[], by rw [h]; rfl, rfl⟩
  | cons p ps ih =>
    intro s r h
    cases s with
    | nil => cases h
    | cons c cs =>
      unfold dropCI at h
      split at h
      case isTrue hlow =>
        obtain ⟨x, hx, hlx⟩ := ih cs r h
        refine ⟨c :: x, by rw [hx]; rfl, ?_⟩
        unfold lowerEq at hlx ⊢
        simp only [List.map_cons, hlow, hlx]
      case isFalse hlow => cases h

/-- Completeness of `dropCI`: it consumes any case-insensitive copy of
its literal. -/
theorem dropCI_complete : ∀ (pat x : Str), lowerEq x pat →
    ∀ r : Str, dropCI pat (x ++ r) = some r := by
  intro pat
  induction pat with
  | nil =>
    intro x hx r
    have : x = [] := by
      unfold lowerEq at hx
      simpa using hx
    rw [this]
    rfl
  | cons p ps ih =>
    intro x hx r
    unfold lowerEq at hx
    cases x with
    | nil => simp at hx
    | cons c cs =>
      simp only [List.map_cons, List.cons.injEq] at hx
      show dropCI (p :: ps) (c :: (cs ++ r)) = some r
      unfold dropCI
      rw [if_pos hx.1]
      exact ih cs hx.2 r

/-- `word11` accepts exactly the strings beginning with an 11-character
video id. -/
theorem word11_iff (s : Str) :
    word11 s = true ↔
      ∃ vid rest, s = vid ++ rest ∧ vid.length = 11 ∧ vid.all wordOrDash = true := by
  constructor
  · intro h
    unfold word11 at h
    rw [Bool.and_eq_true, decide_eq_true_eq] at h
    refine ⟨s.take 11, s.drop 11, (List.take_append_drop 11 s).symm, ?_, h.2⟩
    simp [List.length_take]
    omega
  · rintro ⟨vid, rest, rfl, hlen, hall⟩
    unfold word11
    rw [Bool.and_eq_true, decide_eq_true_eq]
    constructor
    · simp [List.length_append]
      omega
    · rw [List.take_left' hlen]
      exact hall

/-- Soundness of the path-alternative matcher. -/
theorem pathAltMatch_sound (r : Str) (h : pathAltMatch r = true) :
    ∃ pl ∈ pathLits, ∃ plx vid rest,
      r = plx ++ vid ++ rest ∧ lowerEq plx pl ∧
      vid.length = 11 ∧ vid.all wordOrDash = true := by
  unfold pathAltMatch at h
  simp only [Bool.or_eq_true] at h
  have hlit : ∀ pat : Str, litWord11 pat r = true →
      ∃ plx vid rest, r = plx ++ vid ++ rest ∧ lowerEq plx pat ∧
        vid.length = 11 ∧ vid.all wordOrDash = true := by
    intro pat hl
    unfold litWord11 at hl
    cases hdc : dropCI pat r with
    | none => rw [hdc] at hl; cases hl
    | some r2 =>
      rw [hdc] at hl
      obtain ⟨x, hx, hlx⟩ := dropCI_sound pat r r2 hdc
      obtain ⟨vid, rest, hr2, hlen, hall⟩ := (word11_iff r2).mp hl
      exact ⟨x, vid, rest, by rw [hx, hr2, List.append_assoc], hlx, hlen, hall⟩
  rcases h with ((((h | h) | h) | h) | h)
  · exact ⟨("watch?v=").toList, by decide, hlit _ h⟩
  · exact ⟨("shorts/").toList, by decide, hlit _ h⟩
  · exact ⟨("embed/").toList, by decide, hlit _ h⟩
  · exact ⟨("v/").toList, by decide, hlit _ h⟩
  · obtain ⟨vid, rest, hr, hlen, hall⟩ := (word11_iff r).mp h
    exact ⟨[], by decide, [], vid, rest, by rw [hr]; rfl, rfl, hlen, hall⟩

/-- Completeness of the path-alternative matcher. -/
theorem pathAltMatch_complete (pl plx vid rest : Str)
    (hpl : pl ∈ pathLits) (hlx : lowerEq plx pl)
    (hlen : vid.length = 11) (hall : vid.all wordOrDash = true) :
    pathAltMatch (plx ++ vid ++ rest) = true := by
  have hw : word11 (vid ++ rest) = true :=
    (word11_iff (vid ++ rest)).mpr ⟨vid, rest, rfl, hlen, hall⟩
  have hlit : ∀ pat : Str, lowerEq plx pat →
      litWord11 pat (plx ++ vid ++ rest) = true := by
    intro pat hpx
    unfold litWord11
    rw [List.append_assoc, dropCI_complete pat plx hpx (vid ++ rest)]
    exact hw
  unfold pathAltMatch
  simp only [Bool.or_eq_true]
  have hpl' : pl = ("watch?v=").toList ∨ pl = ("shorts/").toList ∨
      pl = ("embed/").toList ∨ pl = ("v/").toList ∨ pl = [] := by
    simpa [pathLits] using hpl
  rcases hpl' with h | h | h | h | h
  · exact Or.inl (Or.inl (Or.inl (Or.inl (hlit _ (h ▸ hlx)))))
  · exact Or.inl (Or.inl (Or.inl (Or.inr (hlit _ (h ▸ hlx)))))
  · exact Or.inl (Or.inl (Or.inr (hlit _ (h ▸ hlx))))
  · exact Or.inl (Or.inr (hlit _ (h ▸ hlx)))
  · have hplx : plx = [] := by
      unfold lowerEq at hlx
      rw [h] at hlx
      simpa using hlx
    refine Or.inr ?_
    rw [hplx]
    exact hw

/-- Soundness of the host matcher. -/
theorem hostTail_sound (s r : Str) (h : hostTail s = some r) :
    ∃ hl ∈ hostLits, ∃ hx, s = hx ++ r ∧ lowerEq hx hl := by
  unfold hostTail at h
  cases hdc : dropCI (("youtube.com/").toList) s with
  | some r2 =>
    rw [hdc] at h
    injection h with h
    subst h
    obtain ⟨x, hx, hlx⟩ := dropCI_sound _ _ _ hdc
    exact ⟨("youtube.com/").toList, by decide, x, hx, hlx⟩
  | none =>
    rw [hdc] at h
    obtain ⟨x, hx, hlx⟩ := dropCI_sound _ _ _ h
    exact ⟨("youtu.be/").toList, by decide, x, hx, hlx⟩

/-- Completeness of the host matcher: it consumes any case-insensitive
copy of either host literal. -/
theorem hostTail_complete (hl hx : Str) (hmem : hl ∈ hostLits)
    (hlx : lowerEq hx hl) (r : Str) : hostTail (hx ++ r) = some r := by
  have hmem' : hl = ("youtube.com/").toList ∨ hl = ("youtu.be/").toList := by
    simpa [hostLits] using hmem
  rcases hmem' with h | h
  · subst h
    unfold hostTail
    rw [dropCI_complete _ hx hlx r]
  · subst h
    cases hdc : dropCI (("youtube.com/").toList) (hx ++ r) with
    | none =>
      unfold hostTail
      rw [hdc]
      exact dropCI_complete _ hx hlx r
    | some r' =>
      exfalso
      obtain ⟨x, hx2, hlx2⟩ := dropCI_sound _ _ _ hdc
      unfold lowerEq at hlx hlx2
      have h1 : (hx ++ r).map Char.toLower =
          ("youtu.be/").toList.map Char.toLower ++ r.map Char.toLower := by
        rw [List.map_append, hlx]
      have h2 : (hx ++ r).map Char.toLower =
          ("youtube.com/").toList.map Char.toLower ++ r'.map Char.toLower := by
        rw [hx2, List.map_append, hlx2]
      have e1 : ((hx ++ r).map Char.toLower)[5]? = some '.' := by
        rw [h1, List.getElem?_append_left (by decide)]
        decide
      have e2 : ((hx ++ r).map Char.toLower)[5]? = some 'b' := by
        rw [h2, List.getElem?_append_left (by decide)]
        decide
      rw [e1] at e2
      simp at e2

/-- Soundness of an optional group: every continuation either skips the
literal or consumes a case-insensitive copy of it. -/
theorem optTails_sound (pat s s2 : Str) (h : s2 ∈ optTails pat s) :
    ∃ x, s = x ++ s2 ∧ (x = [] ∨ lowerEq x pat) := by
  unfold optTails at h
  cases hdc : dropCI pat s with
  | none =>
    rw [hdc] at h
    rcases List.mem_singleton.mp h with rfl
    exact ⟨[], rfl, Or.inl rfl⟩
  | some r =>
    rw [hdc] at h
    rcases List.mem_cons.mp h with rfl | h
    · exact ⟨[], rfl, Or.inl rfl⟩
    · rcases List.mem_singleton.mp h with rfl
      obtain ⟨x, hx, hlx⟩ := dropCI_sound _ _ _ hdc
      exact ⟨x, hx, Or.inr hlx⟩

/-- Skipping an optional group is always a continuation. -/
theorem optTails_self (pat s : Str) : s ∈ optTails pat s := by
  unfold optTails
  cases dropCI pat s <;> simp

/-- Consuming an optional group is a continuation. -/
theorem optTails_of_drop (pat x r : Str) (h : lowerEq x pat) :
    r ∈ optTails pat (x ++ r) := by
  unfold optTails
  rw [dropCI_complete pat x h r]
  simp

/-- Soundness of the scheme options. -/
theorem schemeTails_sound (s s1 : Str) (h : s1 ∈ schemeTails s) :
    ∃ x, s = x ++ s1 ∧ ∃ a ∈ schemeLits, lowerEq x a := by
  unfold schemeTails at h
  rcases List.mem_cons.mp h with rfl | h
  · exact ⟨[], rfl, [], by decide, rfl⟩
  · rcases List.mem_append.mp h with h | h
    · rw [Option.mem_toList, Option.mem_def] at h
      obtain ⟨x, hx, hlx⟩ := dropCI_sound _ _ _ h
      exact ⟨x, hx, ("http://").toList, by decide, hlx⟩
    · rw [Option.mem_toList, Option.mem_def] at h
      obtain ⟨x, hx, hlx⟩ := dropCI_sound _ _ _ h
      exact ⟨x, hx, ("https://").toList, by decide, hlx⟩

/-- Skipping the scheme is always an option. -/
theorem schemeTails_self (s : Str) : s ∈ schemeTails s :=
  List.mem_cons_self _ _

/-- Consuming a scheme copy is an option. -/
theorem schemeTails_of_drop (a x r : Str)
    (ha : a = ("http://").toList ∨ a = ("https://").toList)
    (h : lowerEq x a) : r ∈ schemeTails (x ++ r) := by
  unfold schemeTails
  rcases ha with rfl | rfl
  · rw [dropCI_complete _ x h r]
    simp
  · rw [dropCI_complete _ x h r]
    cases dropCI (("http://").toList) (x ++ r) <;> simp

/-- Soundness of the whole pattern matcher at a position: a match
yields the optional prefixes, a host, a path form and an 11-character
id, with at most the consumed `www.`+`m.` pair folded into a discarded
prefix. -/
theorem youtubeMatchAt_sound (S : Str) (h : youtubeMatchAt S = true) :
    ∃ pre0 sch sub host pl vid rest,
      S = pre0 ++ sch ++ sub ++ host ++ pl ++ vid ++ rest ∧
      (∃ a ∈ schemeLits, lowerEq sch a) ∧ (∃ b ∈ subLits, lowerEq sub b) ∧
      (∃ hl ∈ hostLits, lowerEq host hl) ∧ (∃ p ∈ pathLits, lowerEq pl p) ∧
      vid.length = 11 ∧ vid.all wordOrDash = true := by
  unfold youtubeMatchAt at h
  rw [List.any_eq_true] at h
  obtain ⟨s1, hs1, h⟩ := h
  rw [List.any_eq_true] at h
  obtain ⟨s2, hs2, h⟩ := h
  rw [List.any_eq_true] at h
  obtain ⟨s3, hs3, h⟩ := h
  obtain ⟨schx, hsch, scha, hschmem, hschlow⟩ := schemeTails_sound S s1 hs1
  obtain ⟨wx, hw, hwopt⟩ := optTails_sound _ s1 s2 hs2
  obtain ⟨mx, hm, hmopt⟩ := optTails_sound _ s2 s3 hs3
  obtain ⟨r, hr, hpath⟩ : ∃ r, hostTail s3 = some r ∧ pathAltMatch r = true := by
    cases hht : hostTail s3 with
    | none => rw [hht] at h; cases h
    | some r => rw [hht] at h; exact ⟨r, rfl, h⟩
  obtain ⟨hl, hlmem, hx, hhx, hhlow⟩ := hostTail_sound s3 r hr
  obtain ⟨pl, hplmem, plx, vid, rest, hrdec, hpllow, hlen, hall⟩ := pathAltMatch_sound r hpath
  have hS : S = schx ++ wx ++ mx ++ hx ++ plx ++ vid ++ rest := by
    rw [hsch, hw, hm, hhx, hrdec]
    simp [List.append_assoc]
  rcases hwopt with hwnil | hwlow
  · rcases hmopt with hmnil | hmlow
    · refine ⟨[], schx, [], hx, plx, vid, rest, ?_, ⟨scha, hschmem, hschlow⟩,
        ⟨[], by decide, rfl⟩, ⟨hl, hlmem, hhlow⟩, ⟨pl, hplmem, hpllow⟩, hlen, hall⟩
      rw [hS, hwnil, hmnil]
      simp [List.append_assoc]
    · refine ⟨[], schx, mx, hx, plx, vid, rest, ?_, ⟨scha, hschmem, hschlow⟩,
        ⟨("m.").toList, by decide, hmlow⟩, ⟨hl, hlmem, hhlow⟩,
        ⟨pl, hplmem, hpllow⟩, hlen, hall⟩
      rw [hS, hwnil]
      simp [List.append_assoc]
  · rcases hmopt with hmnil | hmlow
    · refine ⟨[], schx, wx, hx, plx, vid, rest, ?_, ⟨scha, hschmem, hschlow⟩,
        ⟨("www.").toList, by decide, hwlow⟩, ⟨hl, hlmem, hhlow⟩,
        ⟨pl, hplmem, hpllow⟩, hlen, hall⟩
      rw [hS, hmnil]
      simp [List.append_assoc]
    · refine ⟨schx ++ wx, [], mx, hx, plx, vid, rest, ?_, ⟨[], by decide, rfl⟩,
        ⟨("m.").toList, by decide, hmlow⟩, ⟨hl, hlmem, hhlow⟩,
        ⟨pl, hplmem, hpllow⟩, hlen, hall⟩
      rw [hS]
      simp [List.append_assoc]

/-- Completeness of the whole pattern matcher: it matches at the start
of any shape. -/
theorem youtubeMatchAt_complete (sch sub host pl vid rest : Str)
    (hsch : ∃ a ∈ schemeLits, lowerEq sch a)
    (hsub : ∃ b ∈ subLits, lowerEq sub b)
    (hhost : ∃ hl ∈ hostLits, lowerEq host hl)
    (hpl : ∃ p ∈ pathLits, lowerEq pl p)
    (hlen : vid.length = 11) (hall : vid.all wordOrDash = true) :
    youtubeMatchAt (sch ++ sub ++ host ++ pl ++ vid ++ rest) = true := by
  obtain ⟨a, hamem, halow⟩ := hsch
  obtain ⟨b, hbmem, hblow⟩ := hsub
  obtain ⟨hl, hlmem, hllow⟩ := hhost
  obtain ⟨p, hpmem, hplow⟩ := hpl
  have hhostmatch : ∀ z : Str, z = host ++ pl ++ vid ++ rest →
      (match hostTail z with
       | some r => pathAltMatch r
       | none => false) = true := by
    intro z hz
    have h1 : z = host ++ (pl ++ vid ++ rest) := by
      rw [hz]
      simp [List.append_assoc]
    rw [h1, hostTail_complete hl host hlmem hllow (pl ++ vid ++ rest)]
    exact pathAltMatch_complete p pl vid rest hpmem hplow hlen hall
  unfold youtubeMatchAt
  rw [List.any_eq_true]
  have hb' : b = [] ∨ b = ("www.").toList ∨ b = ("m.").toList := by
    simpa [subLits] using hbmem
  have ha' : a = [] ∨ a = ("http://").toList ∨ a = ("https://").toList := by
    simpa [schemeLits] using hamem
  have hsubstep : ∀ s1 : Str, s1 = sub ++ host ++ pl ++ vid ++ rest →
      (optTails (("www.").toList) s1).any (fun s2 =>
        (optTails (("m.").toList) s2).any (fun s3 =>
          match hostTail s3 with
          | some r => pathAltMatch r
          | none => false)) = true := by
    intro s1 hs1
    rcases hb' with rfl | rfl | rfl
    · have hsubnil : sub = [] := by
        unfold lowerEq at hblow
        simpa using hblow
      rw [List.any_eq_true]
      refine ⟨s1, optTails_self _ s1, ?_⟩
      rw [List.any_eq_true]
      refine ⟨s1, optTails_self _ s1, ?_⟩
      exact hhostmatch s1 (by rw [hs1, hsubnil]; rfl)
    · rw [List.any_eq_true]
      refine ⟨host ++ pl ++ vid ++ rest, ?_, ?_⟩
      · have : s1 = sub ++ (host ++ pl ++ vid ++ rest) := by
          rw [hs1]
          simp [List.append_assoc]
        rw [this]
        exact optTails_of_drop _ sub _ hblow
      · rw [List.any_eq_true]
        exact ⟨host ++ pl ++ vid ++ rest, optTails_self _ _, hhostmatch _ rfl⟩
    · rw [List.any_eq_true]
      refine ⟨s1, optTails_self _ s1, ?_⟩
      rw [List.any_eq_true]
      refine ⟨host ++ pl ++ vid ++ rest, ?_, hhostmatch _ rfl⟩
      have : s1 = sub ++ (host ++ pl ++ vid ++ rest) := by
        rw [hs1]
        simp [List.append_assoc]
      rw [this]
      exact optTails_of_drop _ sub _ hblow
  rcases ha' with rfl | rfl | rfl
  · have hschnil : sch = [] := by
      unfold lowerEq at halow
      simpa using halow
    refine ⟨sch ++ sub ++ host ++ pl ++ vid ++ rest,
      schemeTails_self _, hsubstep _ ?_⟩
    rw [hschnil]
    rfl
  · refine ⟨sub ++ host ++ pl ++ vid ++ rest, ?_, hsubstep _ rfl⟩
    have : sch ++ sub ++ host ++ pl ++ vid ++ rest =
        sch ++ (sub ++ host ++ pl ++ vid ++ rest) := by
      simp [List.append_assoc]
    rw [this]
    exact schemeTails_of_drop _ sch _ (Or.inl rfl) halow
  · refine ⟨sub ++ host ++ pl ++ vid ++ rest, ?_, hsubstep _ rfl⟩
    have : sch ++ sub ++ host ++ pl ++ vid ++ rest =
        sch ++ (sub ++ host ++ pl ++ vid ++ rest) := by
      simp [List.append_assoc]
    rw [this]
    exact schemeTails_of_drop _ sch _ (Or.inr rfl) halow

/-- C6: on texts within the modelled character range, `detect_platform`
returns the youtube tag exactly for the texts containing one of the
five recognized URL shapes, and the none result exactly for the
others. -/
theorem detect_platform_correct (t : Str) (_hrange : ∀ c ∈ t, c.toNat < 256) :
    (detect_platform t = some (("youtube").toList) ↔ ContainsYouTubeShape t) ∧
    (detect_platform t = none ↔ ¬ ContainsYouTubeShape t) := by
  have hmain : detect_platform t = some (("youtube").toList) ↔ ContainsYouTubeShape t := by
    constructor
    · intro h
      unfold detect_platform at h
      by_cases h0 : t = []
      · rw [if_pos h0] at h
        cases h
      · rw [if_neg h0] at h
        by_cases hs : youtubeSearch t = true
        · unfold youtubeSearch at hs
          rw [List.any_eq_true] at hs
          obtain ⟨S, hSmem, hSmatch⟩ := hs
          obtain ⟨pre, hpre⟩ := (List.mem_tails S t).mp hSmem
          obtain ⟨pre0, sch, sub, host, pl, vid, rest, hdec, hsch, hsub,
            hhost, hpl, hlen, hall⟩ := youtubeMatchAt_sound S hSmatch
          refine ⟨pre ++ pre0, sch, sub, host, pl, vid, rest, ?_, hsch, hsub,
            hhost, hpl, hlen, hall⟩
          rw [← hpre, hdec]
          simp [List.append_assoc]
        · rw [if_neg hs] at h
          cases h
    · rintro ⟨pre, sch, sub, host, pl, vid, rest, heq, hsch, hsub, hhost, hpl,
        hlen, hall⟩
      have hmatch := youtubeMatchAt_complete sch sub host pl vid rest
        hsch hsub hhost hpl hlen hall
      have hsearch : youtubeSearch t = true := by
        unfold youtubeSearch
        rw [List.any_eq_true]
        refine ⟨sch ++ sub ++ host ++ pl ++ vid ++ rest, ?_, hmatch⟩
        rw [List.mem_tails]
        refine ⟨pre, ?_⟩
        rw [heq]
        simp [List.append_assoc]
      have h0 : t ≠ [] := by
        intro h0
        rw [h0] at heq
        have hL := congrArg List.length heq
        simp [List.length_append, hlen] at hL
        omega
      unfold detect_platform
      rw [if_neg h0, if_pos hsearch]
  refine ⟨hmain, ?_, ?_⟩
  · intro hnone hcont
    have hsome := hmain.mpr hcont
    rw [hnone] at hsome
    cases hsome
  · intro hnc
    unfold detect_platform
    by_cases h0 : t = []
    · rw [if_pos h0]
    · rw [if_neg h0]
      by_cases hs : youtubeSearch t = true
      · exfalso
        apply hnc
        apply hmain.mp
        unfold detect_platform
        rw [if_neg h0, if_pos hs]
      · rw [if_neg hs]

/-- C6 witness: a concrete text containing a shortened-domain link is
detected and contains a shape. -/
theorem detect_platform_correct_witness :
    detect_platform (("see https://youtu.be/dQw4w9WgXcQ ok").toList) =
      some (("youtube").toList) ∧
    ContainsYouTubeShape (("see https://youtu.be/dQw4w9WgXcQ ok").toList) := by
  have h := (detect_platform_correct
    (("see https://youtu.be/dQw4w9WgXcQ ok").toList) (by decide)).1
  have hd : detect_platform (("see https://youtu.be/dQw4w9WgXcQ ok").toList) =
      some (("youtube").toList) := by decide
  exact ⟨hd, h.mp hd⟩

end YTB
